import Mathlib

/-!
Verification of the elven-forest ELF toolchain (elven-parser reader/writer and
the elven-wald linker) against its specification.  The Rust sources are
shallowly embedded: machine integers become `Nat` with explicit `% 2^64`
wherever u64 overflow can occur, fallible operations return `Except`, and
panics (assert!/unreachable!/indexing) become dedicated error constructors.
-/

set_option maxRecDepth 40000

/-- 2^64, the modulus of Rust u64 arithmetic. -/
def U64 : Nat := 2 ^ 64

/-- Modelled from the documented contract of Rust std `u64::is_power_of_two`
(std library code, not part of this repository): true iff the value is 2^k
for some k (necessarily k < 64 for a u64). -/
def isPow2 (n : Nat) : Bool := decide (∃ k, k < 64 ∧ n = 2 ^ k)

/-- `elven_wald::utils::AlignExt::align_up` for u64: asserts the alignment is a
power of two (and positive), then computes `(self + align - 1) & !(align - 1)`
in wrapping u64 arithmetic.  `none` models the assertion failure (a panic).
For 1 ≤ a ≤ 2^64 the u64 complement `!(a - 1)` equals `2^64 - a`. -/
def alignUpU (x a : Nat) : Option Nat :=
  if isPow2 a ∧ 0 < a then
    some (((x + a - 1) % U64) &&& (U64 - a))
  else
    none

/-- `elven_parser::write::align_up` (release semantics: the `debug_assert!`s
are compiled out).  `masked = n & (align - 1)`; if zero the value is returned
unchanged, otherwise `n - masked + align` (wrapping u64 add). -/
def writeAlignUp (n a : Nat) : Nat :=
  let masked := n &&& (a - 1)
  if masked = 0 then n else (n - masked + a) % U64

/-- All entries of the list are bytes. -/
def IsBytes (l : List Nat) : Prop := ∀ b ∈ l, b < 256

instance : DecidablePred IsBytes := fun l =>
  inferInstanceAs (Decidable (∀ b ∈ l, b < 256))

/-- Little-endian serialization of a `w`-byte integer (`bytemuck` layout of the
`repr(C)` records on x86-64, which is little-endian). -/
def encW : Nat → Nat → List Nat
  | 0, _ => []
  | w + 1, v => v % 256 :: encW w (v / 256)

/-- Little-endian deserialization of a byte list. -/
def decLE : List Nat → Nat
  | [] => 0
  | b :: bs => b + 256 * decLE bs

/-- The byte range `[off, off+len)` of a buffer. -/
def bslice (l : List Nat) (off len : Nat) : List Nat := (l.drop off).take len

/-- Read a `len`-byte little-endian field at offset `off`. -/
def rdW (l : List Nat) (off len : Nat) : Nat := decLE (bslice l off len)

theorem encW_length (w v : Nat) : (encW w v).length = w := by
  induction w generalizing v with
  | zero => rfl
  | succ w ih => simp [encW, ih]

theorem decLE_encW (w v : Nat) : decLE (encW w v) = v % 256 ^ w := by
  induction w generalizing v with
  | zero => simp [encW, decLE, Nat.mod_one]
  | succ w ih =>
    have h : (256 : Nat) ^ (w + 1) = 256 * 256 ^ w := by ring
    simp only [encW, decLE, ih, h]
    rw [Nat.mod_mul]

theorem decLE_encW_of_lt {w v : Nat} (h : v < 256 ^ w) : decLE (encW w v) = v := by
  rw [decLE_encW, Nat.mod_eq_of_lt h]

theorem isBytes_encW (w v : Nat) : IsBytes (encW w v) := by
  induction w generalizing v with
  | zero => intro b hb; simp [encW] at hb
  | succ w ih =>
    intro b hb
    simp only [encW, List.mem_cons] at hb
    rcases hb with h | h
    · subst h; exact Nat.mod_lt _ (by norm_num)
    · exact ih _ b h

theorem decLE_lt {l : List Nat} (h : IsBytes l) : decLE l < 256 ^ l.length := by
  induction l with
  | nil => simp [decLE]
  | cons b bs ih =>
    have hb : b < 256 := h b (List.mem_cons_self _ _)
    have hbs : IsBytes bs := fun x hx => h x (List.mem_cons_of_mem _ hx)
    have := ih hbs
    simp only [decLE, List.length_cons]
    have hpow : (256 : Nat) ^ (bs.length + 1) = 256 * 256 ^ bs.length := by ring
    rw [hpow]
    omega

theorem isBytes_append {a b : List Nat} (ha : IsBytes a) (hb : IsBytes b) :
    IsBytes (a ++ b) := by
  intro x hx
  rcases List.mem_append.1 hx with h | h
  · exact ha x h
  · exact hb x h

theorem isBytes_bslice {l : List Nat} (h : IsBytes l) (off len : Nat) :
    IsBytes (bslice l off len) := by
  intro x hx
  exact h x (List.mem_of_mem_drop (List.mem_of_mem_take hx))

/-- Reading a field positioned directly after a known-length prefix. -/
theorem rdW_shift {a tail : List Nat} {off len : Nat} :
    rdW (a ++ tail) (a.length + off) len = rdW tail off len := by
  unfold rdW bslice
  rw [List.drop_append]

/-- Reading the field at the front of the remaining buffer. -/
theorem rdW_here {f rest : List Nat} (hf : f.length = len) :
    rdW (f ++ rest) 0 len = decLE f := by
  unfold rdW bslice
  rw [List.drop_zero, List.take_left' hf]

theorem bslice_shift {a tail : List Nat} {off len : Nat} :
    bslice (a ++ tail) (a.length + off) len = bslice tail off len := by
  unfold bslice
  rw [List.drop_append]

theorem bslice_here {f rest : List Nat} (hf : f.length = len) :
    bslice (f ++ rest) 0 len = f := by
  unfold bslice
  rw [List.drop_zero, List.take_left' hf]

theorem bslice_append_of_length {a b : List Nat} {off len : Nat}
    (h : a.length = off) : bslice (a ++ b) off len = b.take len := by
  subst h
  simp [bslice, List.drop_append]

theorem bslice_append_left {a b : List Nat} {off len : Nat}
    (h : off + len ≤ a.length) : bslice (a ++ b) off len = bslice a off len := by
  unfold bslice
  rw [List.drop_append_of_le_length (by omega)]
  rw [List.take_append_of_le_length (by simp; omega)]

theorem land_high_bits {k : Nat} (hk : k ≤ 64) {y : Nat} (hy : y < U64) :
    y &&& (U64 - 2 ^ k) = y / 2 ^ k * 2 ^ k := by
  have hexp : 2 ^ k * 2 ^ (64 - k) = U64 := by
    rw [← Nat.pow_add]
    unfold U64
    congr 1
    omega
  have hmask : U64 - 2 ^ k = 2 ^ k * (2 ^ (64 - k) - 1) := by
    have h1 : 2 ^ k * (2 ^ (64 - k) - 1) + 2 ^ k = 2 ^ k * 2 ^ (64 - k) := by
      have h2 : 0 < 2 ^ (64 - k) := Nat.pos_pow_of_pos _ (by norm_num)
      calc 2 ^ k * (2 ^ (64 - k) - 1) + 2 ^ k
          = 2 ^ k * (2 ^ (64 - k) - 1 + 1) := by ring
        _ = 2 ^ k * 2 ^ (64 - k) := by rw [Nat.sub_add_cancel h2]
    omega
  have hdiv : y / 2 ^ k * 2 ^ k = 2 ^ k * (y / 2 ^ k) := Nat.mul_comm _ _
  rw [hmask, hdiv]
  apply Nat.eq_of_testBit_eq
  intro i
  rw [Nat.testBit_and, Nat.testBit_mul_pow_two, Nat.testBit_mul_pow_two]
  rcases Nat.lt_or_ge i k with hik | hik
  · simp [Nat.not_le_of_lt hik]
  · have h1 : i ≥ k := hik
    simp only [h1, decide_True, Bool.true_and]
    have hdivbit : (y / 2 ^ k).testBit (i - k) = y.testBit i := by
      rw [← Nat.shiftRight_eq_div_pow, Nat.testBit_shiftRight]
      congr 1
      omega
    rw [hdivbit, Nat.testBit_two_pow_sub_one]
    rcases Nat.lt_or_ge i 64 with hi64 | hi64
    · have : i - k < 64 - k := by omega
      simp [this]
    · have hbit : y.testBit i = false := by
        apply Nat.testBit_lt_two_pow
        calc y < U64 := hy
          _ ≤ 2 ^ i := Nat.pow_le_pow_of_le_right (by norm_num) hi64
      simp [hbit]

theorem isPow2_iff {a : Nat} : isPow2 a = true ↔ ∃ k, k < 64 ∧ a = 2 ^ k := by
  simp [isPow2]

/-- Under a power-of-two alignment and no u64 overflow, the linker's
`align_up` is ordinary round-up division. -/
theorem alignUpU_eq {x a : Nat} (ha : isPow2 a = true) (hov : x + a ≤ U64) :
    alignUpU x a = some ((x + a - 1) / a * a) := by
  obtain ⟨k, hk, rfl⟩ := isPow2_iff.1 ha
  unfold alignUpU
  rw [if_pos ⟨ha, Nat.pos_pow_of_pos k (by norm_num)⟩]
  have hlt : x + 2 ^ k - 1 < U64 := by
    have : 0 < 2 ^ k := Nat.pos_pow_of_pos k (by norm_num)
    omega
  rw [Nat.mod_eq_of_lt hlt, land_high_bits (Nat.le_of_lt hk) hlt]

theorem roundUp_ge {x a : Nat} (ha : 0 < a) : x ≤ (x + a - 1) / a * a := by
  have hdm := Nat.div_add_mod (x + a - 1) a
  have hm := Nat.mod_lt (x + a - 1) ha
  have hq : a * ((x + a - 1) / a) ≥ x := by omega
  calc x ≤ a * ((x + a - 1) / a) := hq
    _ = (x + a - 1) / a * a := Nat.mul_comm _ _

theorem roundUp_le (x a : Nat) : (x + a - 1) / a * a ≤ x + a - 1 := by
  have := Nat.div_mul_le_self (x + a - 1) a
  omega

theorem roundUp_dvd (x a : Nat) : a ∣ (x + a - 1) / a * a :=
  dvd_mul_left a _

/-- Under a power-of-two alignment and no u64 overflow, the writer's
`align_up` is also ordinary round-up division. -/
theorem writeAlignUp_eq {n a : Nat} (ha : isPow2 a = true) (hov : n + a ≤ U64) :
    writeAlignUp n a = (n + a - 1) / a * a := by
  obtain ⟨k, hk, rfl⟩ := isPow2_iff.1 ha
  unfold writeAlignUp
  simp only [Nat.and_pow_two_sub_one_eq_mod]
  have hpos : 0 < 2 ^ k := Nat.pos_pow_of_pos k (by norm_num)
  rcases Nat.eq_zero_or_pos (n % 2 ^ k) with hz | hr
  · rw [if_pos hz]
    obtain ⟨q, hq⟩ := Nat.dvd_of_mod_eq_zero hz
    subst hq
    have h1 : 2 ^ k * q + 2 ^ k - 1 = 2 ^ k * q + (2 ^ k - 1) := by omega
    rw [h1, Nat.mul_add_div hpos, Nat.div_eq_of_lt (by omega), Nat.add_zero,
      Nat.mul_comm]
  · rw [if_neg (by omega)]
    have hdm := Nat.div_add_mod n (2 ^ k)
    set q := n / 2 ^ k with hqdef
    set r := n % 2 ^ k with hrdef
    have hrlt : r < 2 ^ k := Nat.mod_lt _ hpos
    have hL : n - r + 2 ^ k = 2 ^ k * (q + 1) := by
      have : 2 ^ k * (q + 1) = 2 ^ k * q + 2 ^ k := by ring
      omega
    have hR : (n + 2 ^ k - 1) / 2 ^ k = q + 1 := by
      have h1 : n + 2 ^ k - 1 = 2 ^ k * (q + 1) + (r - 1) := by
        have : 2 ^ k * (q + 1) = 2 ^ k * q + 2 ^ k := by ring
        omega
      rw [h1, Nat.mul_add_div hpos, Nat.div_eq_of_lt (by omega), Nat.add_zero]
    rw [hL, hR]
    have hlt : 2 ^ k * (q + 1) < U64 := by
      have : 2 ^ k * (q + 1) = 2 ^ k * q + 2 ^ k := by ring
      omega
    rw [Nat.mod_eq_of_lt hlt, Nat.mul_comm]


theorem rdW_skip_encW {w v : Nat} {tail : List Nat} {off len : Nat}
    (h : w ≤ off) : rdW (encW w v ++ tail) off len = rdW tail (off - w) len := by
  unfold rdW bslice
  rw [List.drop_append_eq_append_drop,
    List.drop_eq_nil_of_le (by rw [encW_length]; omega), List.nil_append,
    encW_length]

theorem rdW_read_encW {w v : Nat} {tail : List Nat} :
    rdW (encW w v ++ tail) 0 w = v % 256 ^ w := by
  unfold rdW bslice
  rw [List.drop_zero, List.take_left' (encW_length w v), decLE_encW]

/-- `elven_parser::read::Shdr`: an ELF64 section header record (64 bytes). -/
structure ShdrR where
  name : Nat
  typ : Nat
  flags : Nat
  addr : Nat
  offset : Nat
  size : Nat
  link : Nat
  info : Nat
  addralign : Nat
  entsize : Nat
  deriving DecidableEq, Repr

/-- Field ranges of the Rust `Shdr` record (u32/u64 fields). -/
def ShdrR.WF (s : ShdrR) : Prop :=
  s.name < 2 ^ 32 ∧ s.typ < 2 ^ 32 ∧ s.flags < 2 ^ 64 ∧ s.addr < 2 ^ 64 ∧
  s.offset < 2 ^ 64 ∧ s.size < 2 ^ 64 ∧ s.link < 2 ^ 32 ∧ s.info < 2 ^ 32 ∧
  s.addralign < 2 ^ 64 ∧ s.entsize < 2 ^ 64

instance (s : ShdrR) : Decidable s.WF := by
  unfold ShdrR.WF
  infer_instance

/-- Byte serialization of a `Shdr` (bytemuck `repr(C)` layout, little-endian). -/
def encShdr (s : ShdrR) : List Nat :=
  encW 4 s.name ++ (encW 4 s.typ ++ (encW 8 s.flags ++ (encW 8 s.addr ++
    (encW 8 s.offset ++ (encW 8 s.size ++ (encW 4 s.link ++ (encW 4 s.info ++
    (encW 8 s.addralign ++ encW 8 s.entsize))))))))

/-- Reading a `Shdr` back from a 64-byte region. -/
def decShdr (bs : List Nat) : ShdrR :=
  { name := rdW bs 0 4, typ := rdW bs 4 4, flags := rdW bs 8 8,
    addr := rdW bs 16 8, offset := rdW bs 24 8, size := rdW bs 32 8,
    link := rdW bs 40 4, info := rdW bs 44 4, addralign := rdW bs 48 8,
    entsize := rdW bs 56 8 }

theorem encShdr_length (s : ShdrR) : (encShdr s).length = 64 := by
  simp [encShdr, encW_length]

theorem isBytes_encShdr (s : ShdrR) : IsBytes (encShdr s) := by
  unfold encShdr
  repeat' apply isBytes_append
  all_goals apply isBytes_encW

theorem decShdr_encShdr {s : ShdrR} (hwf : s.WF) (rest : List Nat) :
    decShdr (encShdr s ++ rest) = s := by
  obtain ⟨h1, h2, h3, h4, h5, h6, h7, h8, h9, h10⟩ := hwf
  cases s with
  | mk name typ flags addr offset size link info addralign entsize =>
    simp only [decShdr, encShdr, List.append_assoc, ShdrR.mk.injEq]
    simp only [rdW_skip_encW, rdW_read_encW, Nat.reduceSub, Nat.reducePow,
      Nat.reduceLeDiff]
    dsimp only at h1 h2 h3 h4 h5 h6 h7 h8 h9 h10
    omega

theorem rdW_skip_of_length {a tail : List Nat} {off len : Nat}
    (h : a.length ≤ off) : rdW (a ++ tail) off len = rdW tail (off - a.length) len := by
  unfold rdW bslice
  rw [List.drop_append_eq_append_drop, List.drop_eq_nil_of_le h,
    List.nil_append]

/-- `elven_parser::read::Phdr`: an ELF64 program header record (56 bytes). -/
structure PhdrR where
  typ : Nat
  flags : Nat
  offset : Nat
  vaddr : Nat
  paddr : Nat
  filesz : Nat
  memsz : Nat
  align : Nat
  deriving DecidableEq, Repr

/-- Field ranges of the Rust `Phdr` record. -/
def PhdrR.WF (p : PhdrR) : Prop :=
  p.typ < 2 ^ 32 ∧ p.flags < 2 ^ 32 ∧ p.offset < 2 ^ 64 ∧ p.vaddr < 2 ^ 64 ∧
  p.paddr < 2 ^ 64 ∧ p.filesz < 2 ^ 64 ∧ p.memsz < 2 ^ 64 ∧ p.align < 2 ^ 64

instance (p : PhdrR) : Decidable p.WF := by
  unfold PhdrR.WF
  infer_instance

def encPhdr (p : PhdrR) : List Nat :=
  encW 4 p.typ ++ (encW 4 p.flags ++ (encW 8 p.offset ++ (encW 8 p.vaddr ++
    (encW 8 p.paddr ++ (encW 8 p.filesz ++ (encW 8 p.memsz ++ encW 8 p.align))))))

def decPhdr (bs : List Nat) : PhdrR :=
  { typ := rdW bs 0 4, flags := rdW bs 4 4, offset := rdW bs 8 8,
    vaddr := rdW bs 16 8, paddr := rdW bs 24 8, filesz := rdW bs 32 8,
    memsz := rdW bs 40 8, align := rdW bs 48 8 }

theorem encPhdr_length (p : PhdrR) : (encPhdr p).length = 56 := by
  simp [encPhdr, encW_length]

theorem isBytes_encPhdr (p : PhdrR) : IsBytes (encPhdr p) := by
  unfold encPhdr
  repeat' apply isBytes_append
  all_goals apply isBytes_encW

theorem decPhdr_encPhdr {p : PhdrR} (hwf : p.WF) (rest : List Nat) :
    decPhdr (encPhdr p ++ rest) = p := by
  obtain ⟨h1, h2, h3, h4, h5, h6, h7, h8⟩ := hwf
  cases p with
  | mk typ flags offset vaddr paddr filesz memsz align =>
    simp only [decPhdr, encPhdr, List.append_assoc, PhdrR.mk.injEq]
    simp only [rdW_skip_encW, rdW_read_encW, Nat.reduceSub, Nat.reducePow,
      Nat.reduceLeDiff]
    dsimp only at h1 h2 h3 h4 h5 h6 h7 h8
    omega

/-- `elven_parser::read::Sym`: an ELF64 symbol record (24 bytes). -/
structure SymR where
  name : Nat
  info : Nat
  other : Nat
  shndx : Nat
  value : Nat
  size : Nat
  deriving DecidableEq, Repr

def SymR.WF (s : SymR) : Prop :=
  s.name < 2 ^ 32 ∧ s.info < 2 ^ 8 ∧ s.other < 2 ^ 8 ∧ s.shndx < 2 ^ 16 ∧
  s.value < 2 ^ 64 ∧ s.size < 2 ^ 64

instance (s : SymR) : Decidable s.WF := by
  unfold SymR.WF
  infer_instance

/-- `SymInfo::type`: the low nibble of the info byte. -/
def SymR.symType (s : SymR) : Nat := s.info &&& 15

/-- `SymInfo::binding`: the high nibble of the info byte. -/
def SymR.symBinding (s : SymR) : Nat := s.info / 16

def encSym (s : SymR) : List Nat :=
  encW 4 s.name ++ (encW 1 s.info ++ (encW 1 s.other ++ (encW 2 s.shndx ++
    (encW 8 s.value ++ encW 8 s.size))))

def decSym (bs : List Nat) : SymR :=
  { name := rdW bs 0 4, info := rdW bs 4 1, other := rdW bs 5 1,
    shndx := rdW bs 6 2, value := rdW bs 8 8, size := rdW bs 16 8 }

theorem encSym_length (s : SymR) : (encSym s).length = 24 := by
  simp [encSym, encW_length]

theorem isBytes_encSym (s : SymR) : IsBytes (encSym s) := by
  unfold encSym
  repeat' apply isBytes_append
  all_goals apply isBytes_encW

theorem decSym_encSym {s : SymR} (hwf : s.WF) (rest : List Nat) :
    decSym (encSym s ++ rest) = s := by
  obtain ⟨h1, h2, h3, h4, h5, h6⟩ := hwf
  cases s with
  | mk name info other shndx value size =>
    simp only [decSym, encSym, List.append_assoc, SymR.mk.injEq]
    simp only [rdW_skip_encW, rdW_read_encW, Nat.reduceSub, Nat.reducePow,
      Nat.reduceLeDiff]
    dsimp only at h1 h2 h3 h4 h5 h6
    omega

/-- `elven_parser::read::ElfIdent`: the 16 identification bytes. -/
structure ElfIdentR where
  m0 : Nat
  m1 : Nat
  m2 : Nat
  m3 : Nat
  cls : Nat
  dat : Nat
  iver : Nat
  osabi : Nat
  abiver : Nat
  p0 : Nat
  p1 : Nat
  p2 : Nat
  p3 : Nat
  p4 : Nat
  p5 : Nat
  p6 : Nat
  deriving DecidableEq, Repr

def ElfIdentR.WF (i : ElfIdentR) : Prop :=
  i.m0 < 256 ∧ i.m1 < 256 ∧ i.m2 < 256 ∧ i.m3 < 256 ∧ i.cls < 256 ∧
  i.dat < 256 ∧ i.iver < 256 ∧ i.osabi < 256 ∧ i.abiver < 256 ∧ i.p0 < 256 ∧
  i.p1 < 256 ∧ i.p2 < 256 ∧ i.p3 < 256 ∧ i.p4 < 256 ∧ i.p5 < 256 ∧ i.p6 < 256

instance (i : ElfIdentR) : Decidable i.WF := by
  unfold ElfIdentR.WF
  infer_instance

def encIdent (i : ElfIdentR) : List Nat :=
  encW 1 i.m0 ++ (encW 1 i.m1 ++ (encW 1 i.m2 ++ (encW 1 i.m3 ++ (encW 1 i.cls ++
    (encW 1 i.dat ++ (encW 1 i.iver ++ (encW 1 i.osabi ++ (encW 1 i.abiver ++
    (encW 1 i.p0 ++ (encW 1 i.p1 ++ (encW 1 i.p2 ++ (encW 1 i.p3 ++ (encW 1 i.p4 ++
    (encW 1 i.p5 ++ encW 1 i.p6))))))))))))))

def decIdent (bs : List Nat) : ElfIdentR :=
  { m0 := rdW bs 0 1, m1 := rdW bs 1 1, m2 := rdW bs 2 1, m3 := rdW bs 3 1,
    cls := rdW bs 4 1, dat := rdW bs 5 1, iver := rdW bs 6 1,
    osabi := rdW bs 7 1, abiver := rdW bs 8 1, p0 := rdW bs 9 1,
    p1 := rdW bs 10 1, p2 := rdW bs 11 1, p3 := rdW bs 12 1, p4 := rdW bs 13 1,
    p5 := rdW bs 14 1, p6 := rdW bs 15 1 }

theorem encIdent_length (i : ElfIdentR) : (encIdent i).length = 16 := by
  simp [encIdent, encW_length]

theorem isBytes_encIdent (i : ElfIdentR) : IsBytes (encIdent i) := by
  unfold encIdent
  repeat' apply isBytes_append
  all_goals apply isBytes_encW

theorem decIdent_encIdent {i : ElfIdentR} (hwf : i.WF) (rest : List Nat) :
    decIdent (encIdent i ++ rest) = i := by
  obtain ⟨g1, g2, g3, g4, g5, g6, g7, g8, g9, g10, g11, g12, g13, g14, g15,
    g16⟩ := hwf
  cases i with
  | mk m0 m1 m2 m3 cls dat iver osabi abiver p0 p1 p2 p3 p4 p5 p6 =>
    simp only [decIdent, encIdent, List.append_assoc, ElfIdentR.mk.injEq]
    simp only [rdW_skip_encW, rdW_read_encW, Nat.reduceSub, Nat.reducePow,
      Nat.reduceLeDiff]
    dsimp only at g1 g2 g3 g4 g5 g6 g7 g8 g9 g10 g11 g12 g13 g14 g15 g16
    omega

/-- `elven_parser::read::ElfHeader`: the 64-byte ELF64 file header. -/
structure ElfHeaderR where
  ident : ElfIdentR
  typ : Nat
  mach : Nat
  ver : Nat
  entry : Nat
  phoff : Nat
  shoff : Nat
  flags : Nat
  ehsize : Nat
  phentsize : Nat
  phnum : Nat
  shentsize : Nat
  shnum : Nat
  shstrndex : Nat
  deriving DecidableEq, Repr

def ElfHeaderR.WF (h : ElfHeaderR) : Prop :=
  h.ident.WF ∧ h.typ < 2 ^ 16 ∧ h.mach < 2 ^ 16 ∧ h.ver < 2 ^ 32 ∧
  h.entry < 2 ^ 64 ∧ h.phoff < 2 ^ 64 ∧ h.shoff < 2 ^ 64 ∧ h.flags < 2 ^ 32 ∧
  h.ehsize < 2 ^ 16 ∧ h.phentsize < 2 ^ 16 ∧ h.phnum < 2 ^ 16 ∧
  h.shentsize < 2 ^ 16 ∧ h.shnum < 2 ^ 16 ∧ h.shstrndex < 2 ^ 16

instance (h : ElfHeaderR) : Decidable h.WF := by
  unfold ElfHeaderR.WF
  infer_instance

def encEhdr (h : ElfHeaderR) : List Nat :=
  encIdent h.ident ++ (encW 2 h.typ ++ (encW 2 h.mach ++ (encW 4 h.ver ++
    (encW 8 h.entry ++ (encW 8 h.phoff ++ (encW 8 h.shoff ++ (encW 4 h.flags ++
    (encW 2 h.ehsize ++ (encW 2 h.phentsize ++ (encW 2 h.phnum ++
    (encW 2 h.shentsize ++ (encW 2 h.shnum ++ encW 2 h.shstrndex))))))))))))

def decEhdr (bs : List Nat) : ElfHeaderR :=
  { ident := decIdent bs, typ := rdW bs 16 2, mach := rdW bs 18 2,
    ver := rdW bs 20 4, entry := rdW bs 24 8, phoff := rdW bs 32 8,
    shoff := rdW bs 40 8, flags := rdW bs 48 4, ehsize := rdW bs 52 2,
    phentsize := rdW bs 54 2, phnum := rdW bs 56 2, shentsize := rdW bs 58 2,
    shnum := rdW bs 60 2, shstrndex := rdW bs 62 2 }

theorem encEhdr_length (h : ElfHeaderR) : (encEhdr h).length = 64 := by
  simp [encEhdr, encW_length, encIdent_length]

theorem isBytes_encEhdr (h : ElfHeaderR) : IsBytes (encEhdr h) := by
  unfold encEhdr
  repeat' apply isBytes_append
  all_goals first
    | apply isBytes_encIdent
    | apply isBytes_encW

theorem decEhdr_encEhdr {h : ElfHeaderR} (hwf : h.WF) (rest : List Nat) :
    decEhdr (encEhdr h ++ rest) = h := by
  obtain ⟨hi, h1, h2, h3, h4, h5, h6, h7, h8, h9, h10, h11, h12, h13⟩ := hwf
  cases h with
  | mk ident typ mach ver entry phoff shoff flags ehsize phentsize phnum
      shentsize shnum shstrndex =>
    try dsimp only at hi h1 h2 h3 h4 h5 h6 h7 h8 h9 h10 h11 h12 h13
    simp only [decEhdr, encEhdr, ElfHeaderR.mk.injEq]
    constructor
    · have henc : encIdent ident ++ (encW 2 typ ++ (encW 2 mach ++ (encW 4 ver ++
        (encW 8 entry ++ (encW 8 phoff ++ (encW 8 shoff ++ (encW 4 flags ++
        (encW 2 ehsize ++ (encW 2 phentsize ++ (encW 2 phnum ++
        (encW 2 shentsize ++ (encW 2 shnum ++ encW 2 shstrndex)))))))))))) ++
        rest = encIdent ident ++ ((encW 2 typ ++ (encW 2 mach ++ (encW 4 ver ++
        (encW 8 entry ++ (encW 8 phoff ++ (encW 8 shoff ++ (encW 4 flags ++
        (encW 2 ehsize ++ (encW 2 phentsize ++ (encW 2 phnum ++
        (encW 2 shentsize ++ (encW 2 shnum ++ encW 2 shstrndex)))))))))))) ++
        rest) := by rw [List.append_assoc]
      rw [henc, decIdent_encIdent hi]
    · simp only [List.append_assoc]
      simp only [rdW_skip_of_length, encIdent_length, rdW_skip_encW,
        rdW_read_encW, Nat.reduceSub, Nat.reducePow, Nat.reduceLeDiff]
      omega

/-- The 4 ELF magic bytes `b"\x7fELF"`. -/
def elfmag : List Nat := [127, 69, 76, 70]

/-- `u64::trailing_zeros` (64 for zero), used only as an error payload. -/
def trailingZeros64 (n : Nat) : Nat := (List.range 64).findIdx (fun k => n.testBit k)

/-- `elven_parser::read::ElfReadError`. `panicked` models the `todo!` and
`unreachable!` panics reachable from the read paths, which are not error
values in the source. -/
inductive ElfReadErr where
  | fileTooSmall
  | regionOutOfBounds (expected found : Nat) (kind : String)
  | unalignedInput (expected found : Nat)
  | wrongMagic (m : List Nat)
  | invalidPhEntSize (expected found : Nat)
  | invalidShEntSize (expected found : Nat)
  | strTableSectionNotPresent
  | indexOutOfBounds (kind : String) (idx : Nat)
  | noStringNulTerm (off : Nat)
  | sectionTypeNotFound (t : Nat)
  | notFoundByName (kind : String) (name : List Nat)
  | dynEntryNotFound (t : Nat)
  | panicked (msg : String)
  deriving DecidableEq, Repr

/-- An `ElfReader`: the borrowed byte buffer plus its runtime base address
(the address only feeds the alignment checks and their diagnostics). -/
structure ElfData where
  base : Nat
  data : List Nat
  deriving DecidableEq, Repr

/-- `elven_parser::read::load_slice`, generic over the record size, alignment
and decoder: the repo's size check, then `bytemuck::try_cast_slice` from
`&[u8]` (alignment first, then the size branches; the `SizeMismatch` and
`OutputSliceWouldHaveSlop` arms are mapped to `unreachable!` by the repo). -/
def loadSlice (elemSize elemAlign : Nat) (dec : List Nat → α) (addr : Nat)
    (data : List Nat) (count : Nat) (kind : String) :
    Except ElfReadErr (List α) :=
  let size := elemSize * count
  if data.length < size then
    .error (.regionOutOfBounds size data.length kind)
  else if 1 < elemAlign ∧ addr % elemAlign ≠ 0 then
    .error (.unalignedInput elemAlign (trailingZeros64 addr))
  else if elemSize = 1 then
    .ok ((List.range count).map (fun i => dec (bslice data (elemSize * i) elemSize)))
  else if elemSize = 0 then
    .error (.panicked "unreachable SizeMismatch")
  else if size % elemSize = 0 then
    .ok ((List.range count).map (fun i => dec (bslice data (elemSize * i) elemSize)))
  else
    .error (.panicked "unreachable OutputSliceWouldHaveSlop")

/-- `ElfReader::new`: length check (against the 64-byte header size) first,
then the 4-byte magic comparison. -/
def elfNew (e : ElfData) : Except ElfReadErr ElfData :=
  if e.data.length < 64 then .error .fileTooSmall
  else if bslice e.data 0 4 ≠ elfmag then .error (.wrongMagic (bslice e.data 0 4))
  else .ok e

/-- `ElfReader::header` (via `load_ref`). -/
def readHeader (e : ElfData) : Except ElfReadErr ElfHeaderR :=
  match loadSlice 64 8 decEhdr e.base e.data 1 "header" with
  | .error er => .error er
  | .ok [] => .error (.panicked "index 0 out of bounds")
  | .ok (h :: _) => .ok h

/-- `ElfReader::program_headers`. -/
def programHeaders (e : ElfData) : Except ElfReadErr (List PhdrR) := do
  let h ← readHeader e
  if h.phnum = 0 then
    return []
  else if h.phentsize ≠ 56 then
    throw (.invalidPhEntSize 56 h.phentsize)
  else if h.phoff > e.data.length then
    throw (.indexOutOfBounds "program header offset" h.phoff)
  else
    loadSlice 56 8 decPhdr (e.base + h.phoff) (e.data.drop h.phoff) h.phnum
      "program headers"

/-- `ElfReader::section_headers`.  NOTE: on an entry-size mismatch the source
(read.rs line 268) constructs `InvalidPhEntSize`, not `InvalidShEntSize`; the
embedding mirrors that. -/
def sectionHeaders (e : ElfData) : Except ElfReadErr (List ShdrR) := do
  let h ← readHeader e
  if h.shnum = 0 then
    return []
  else if h.shentsize ≠ 64 then
    throw (.invalidPhEntSize 64 h.shentsize)
  else if h.shoff > e.data.length then
    throw (.indexOutOfBounds "section header offset" h.shoff)
  else
    loadSlice 64 8 decShdr (e.base + h.shoff) (e.data.drop h.shoff) h.shnum
      "section headers"

/-- `ElfReader::section_header`. -/
def sectionHeaderAt (e : ElfData) (idx : Nat) : Except ElfReadErr ShdrR := do
  let shs ← sectionHeaders e
  match shs.get? idx with
  | some sh => return sh
  | none => throw (.indexOutOfBounds "section number" idx)

/-- `ElfReader::section_content`: no-bits sections read as empty, otherwise
the range `[offset, offset+size)` with bounds checks. -/
def sectionContent (e : ElfData) (sh : ShdrR) : Except ElfReadErr (List Nat) :=
  if sh.typ = 8 then .ok []
  else if sh.offset > e.data.length then
    .error (.indexOutOfBounds "section offset" sh.offset)
  else if sh.size > e.data.length - sh.offset then
    .error (.indexOutOfBounds "section size" sh.size)
  else .ok (bslice e.data sh.offset sh.size)

/-- `ElfReader::sh_str_table`. -/
def shStrTable (e : ElfData) : Except ElfReadErr (List Nat) := do
  let h ← readHeader e
  if h.shstrndex = 0 then
    throw .strTableSectionNotPresent
  else if h.shstrndex ≥ 0xff00 then
    throw (.panicked "todo shstrndx from sh_link")
  else do
    let sh ← sectionHeaderAt e h.shstrndex
    sectionContent e sh

/-- Scanning a string table forward from `idx` to the nul terminator (shared
shape of `sh_string`/`string`/`dyn_string`). -/
def readStrFrom (tab : List Nat) (idx : Nat) : Except ElfReadErr (List Nat) :=
  if idx > tab.length then .error (.indexOutOfBounds "string offset" idx)
  else
    match (tab.drop idx).findIdx? (fun c => c = 0) with
    | none => .error (.noStringNulTerm idx)
    | some j => .ok ((tab.drop idx).take j)

/-- `ElfReader::sh_string`. -/
def shString (e : ElfData) (idx : Nat) : Except ElfReadErr (List Nat) := do
  readStrFrom (← shStrTable e) idx

/-- `ElfReader::str_table` (the `.strtab` section by name). -/
def bstrtab : List Nat := [46, 115, 116, 114, 116, 97, 98]

def shByNameLoop (e : ElfData) (name : List Nat) :
    List ShdrR → Except ElfReadErr ShdrR
  | [] => .error (.notFoundByName "section" name)
  | sh :: rest => do
    let s ← shString e sh.name
    if s = name then return sh else shByNameLoop e name rest

/-- `ElfReader::section_header_by_name`. -/
def sectionHeaderByName (e : ElfData) (name : List Nat) :
    Except ElfReadErr ShdrR := do
  shByNameLoop e name (← sectionHeaders e)

/-- `ElfReader::section_header_by_type`. -/
def sectionHeaderByType (e : ElfData) (t : Nat) : Except ElfReadErr ShdrR := do
  match (← sectionHeaders e).find? (fun sh => sh.typ = t) with
  | some sh => return sh
  | none => throw (.sectionTypeNotFound t)

def strTable (e : ElfData) : Except ElfReadErr (List Nat) := do
  sectionContent e (← sectionHeaderByName e bstrtab)

/-- `ElfReader::string`. -/
def stringAt (e : ElfData) (idx : Nat) : Except ElfReadErr (List Nat) := do
  readStrFrom (← strTable e) idx

/-- `ElfReader::symbols`: the one `SHT_SYMTAB` section, content reinterpreted
as `Sym` records (`content.len() / size_of::<Sym>()` of them). -/
def symbols (e : ElfData) : Except ElfReadErr (List SymR) := do
  let sh ← sectionHeaderByType e 2
  let d ← sectionContent e sh
  loadSlice 24 8 decSym (e.base + sh.offset) d (d.length / 24) "symbols"

def symByNameLoop (e : ElfData) (name : List Nat) :
    List SymR → Except ElfReadErr SymR
  | [] => .error (.notFoundByName "symbol" name)
  | sym :: rest => do
    let s ← stringAt e sym.name
    if s = name then return sym else symByNameLoop e name rest

/-- `ElfReader::symbol_by_name`. -/
def symbolByName (e : ElfData) (name : List Nat) : Except ElfReadErr SymR := do
  symByNameLoop e name (← symbols e)

instance {ε α : Type} [DecidableEq ε] [DecidableEq α] :
    DecidableEq (Except ε α) := fun x y =>
  match x, y with
  | .error a, .error b =>
    if h : a = b then isTrue (by rw [h])
    else isFalse (fun hc => h (Except.error.inj hc))
  | .error _, .ok _ => isFalse (fun hc => Except.noConfusion hc)
  | .ok _, .error _ => isFalse (fun hc => Except.noConfusion hc)
  | .ok a, .ok b =>
    if h : a = b then isTrue (by rw [h])
    else isFalse (fun hc => h (Except.ok.inj hc))

/-- The identification bytes every valid input starts with (magic, ELF64,
little-endian, System V). -/
def magicIdent : ElfIdentR :=
  { m0 := 127, m1 := 69, m2 := 76, m3 := 70, cls := 2, dat := 1, iver := 1,
    osabi := 0, abiver := 0, p0 := 0, p1 := 0, p2 := 0, p3 := 0, p4 := 0,
    p5 := 0, p6 := 0 }

/-- Claim C5 (amended): for every buffer of length at least 64 (the header
size) whose first four bytes are not the ELF signature, `ElfReader::new`
returns the `WrongMagic` failure carrying those bytes.  (Buffers of length
4..63 fail the size check first and yield `FileTooSmall` instead — see the
counterexample.) -/
theorem c5_magic_rejection (e : ElfData) (hlen : 64 ≤ e.data.length)
    (hm : bslice e.data 0 4 ≠ elfmag) :
    elfNew e = .error (.wrongMagic (bslice e.data 0 4)) := by
  unfold elfNew
  rw [if_neg (by omega), if_pos hm]

theorem c5_magic_rejection_witness :
    64 ≤ (ElfData.mk 0 (List.replicate 64 0)).data.length ∧
    bslice (ElfData.mk 0 (List.replicate 64 0)).data 0 4 ≠ elfmag ∧
    elfNew (ElfData.mk 0 (List.replicate 64 0)) =
      .error (.wrongMagic (bslice (ElfData.mk 0 (List.replicate 64 0)).data 0 4)) :=
  ⟨by decide, by decide,
    c5_magic_rejection (ElfData.mk 0 (List.replicate 64 0)) (by decide) (by decide)⟩

/-- Claim C5, counterexample to the claim as stated: the 4-byte buffer
`[0,0,0,0]` has non-ELF magic and length at least 4, yet `ElfReader::new`
returns `FileTooSmall`, not `WrongMagic`, because the size check (against the
64-byte header size) runs before the magic comparison. -/
theorem c5_magic_rejection_counterexample :
    elfNew (ElfData.mk 0 [0, 0, 0, 0]) = .error .fileTooSmall ∧
    elfNew (ElfData.mk 0 [0, 0, 0, 0]) ≠ .error (.wrongMagic [0, 0, 0, 0]) := by
  constructor
  · decide
  · decide

/-- Header of a file declaring one section-header-table entry with entry size
32 instead of the compiled-in 64. -/
def c6ShHdr : ElfHeaderR :=
  { ident := magicIdent, typ := 1, mach := 62, ver := 1, entry := 0,
    phoff := 0, shoff := 64, flags := 0, ehsize := 64, phentsize := 56,
    phnum := 0, shentsize := 32, shnum := 2, shstrndex := 0 }

/-- Header of a file declaring one program-header-table entry with entry size
32 instead of the compiled-in 56. -/
def c6PhHdr : ElfHeaderR :=
  { ident := magicIdent, typ := 1, mach := 62, ver := 1, entry := 0,
    phoff := 64, shoff := 0, flags := 0, ehsize := 64, phentsize := 32,
    phnum := 2, shentsize := 64, shnum := 0, shstrndex := 0 }

/-- Claim C6: both accessors reject a mismatched per-entry size even though
the declared table (2 entries of 32 bytes = 64 bytes) would fit in the
buffer, but `section_headers` raises `InvalidPhEntSize` — the program-header
table's error — instead of `InvalidShEntSize`, which the source never
constructs (read.rs line 268 reuses the Ph variant). -/
theorem c6_entsize_guard :
    programHeaders (ElfData.mk 0 (encEhdr c6PhHdr ++ List.replicate 64 0)) =
      .error (.invalidPhEntSize 56 32) ∧
    sectionHeaders (ElfData.mk 0 (encEhdr c6ShHdr ++ List.replicate 64 0)) =
      .error (.invalidPhEntSize 64 32) ∧
    sectionHeaders (ElfData.mk 0 (encEhdr c6ShHdr ++ List.replicate 64 0)) ≠
      .error (.invalidShEntSize 64 32) := by
  refine ⟨by decide, by decide, by decide⟩

/-- Claim C9: the raw-byte reinterpretation primitive checks size first
(returning the bounds error whenever the region is short, regardless of
alignment), alignment second, and once both checks pass it succeeds; for any
positive record size (every record type it is instantiated at has positive
size) it never takes the `unreachable!` branches that map the remaining
`bytemuck` cast errors. -/
theorem c9_load_slice_checks {α : Type} (elemSize elemAlign addr count : Nat)
    (data : List Nat) (dec : List Nat → α) (kind : String)
    (hsz : 0 < elemSize) :
    (data.length < elemSize * count →
      loadSlice elemSize elemAlign dec addr data count kind =
        .error (.regionOutOfBounds (elemSize * count) data.length kind)) ∧
    (elemSize * count ≤ data.length → 1 < elemAlign → addr % elemAlign ≠ 0 →
      loadSlice elemSize elemAlign dec addr data count kind =
        .error (.unalignedInput elemAlign (trailingZeros64 addr))) ∧
    (elemSize * count ≤ data.length → (elemAlign ≤ 1 ∨ addr % elemAlign = 0) →
      loadSlice elemSize elemAlign dec addr data count kind =
        .ok ((List.range count).map
          (fun i => dec (bslice data (elemSize * i) elemSize)))) ∧
    (∀ msg, loadSlice elemSize elemAlign dec addr data count kind ≠
      .error (.panicked msg)) := by
  have c1 : data.length < elemSize * count →
      loadSlice elemSize elemAlign dec addr data count kind =
        .error (.regionOutOfBounds (elemSize * count) data.length kind) := by
    intro h
    unfold loadSlice
    rw [if_pos h]
  have c2 : elemSize * count ≤ data.length → 1 < elemAlign →
      addr % elemAlign ≠ 0 →
      loadSlice elemSize elemAlign dec addr data count kind =
        .error (.unalignedInput elemAlign (trailingZeros64 addr)) := by
    intro hle hal hmod
    unfold loadSlice
    rw [if_neg (by omega), if_pos ⟨hal, hmod⟩]
  have c3 : elemSize * count ≤ data.length →
      (elemAlign ≤ 1 ∨ addr % elemAlign = 0) →
      loadSlice elemSize elemAlign dec addr data count kind =
        .ok ((List.range count).map
          (fun i => dec (bslice data (elemSize * i) elemSize))) := by
    intro hle hok
    unfold loadSlice
    have hnal : ¬(1 < elemAlign ∧ addr % elemAlign ≠ 0) := by
      rintro ⟨hgt, hmod⟩
      rcases hok with h | h
      · omega
      · exact hmod h
    rw [if_neg (by omega), if_neg hnal]
    rcases Nat.eq_or_lt_of_le hsz with h1 | h1
    · rw [if_pos h1.symm]
    · rw [if_neg (by omega), if_neg (by omega),
        if_pos (Nat.mul_mod_right elemSize count)]
  refine ⟨c1, c2, c3, ?_⟩
  intro msg
  rcases Nat.lt_or_ge data.length (elemSize * count) with h | h
  · rw [c1 h]
    exact fun hc => ElfReadErr.noConfusion (Except.error.inj hc)
  · by_cases hal : 1 < elemAlign ∧ addr % elemAlign ≠ 0
    · rw [c2 h hal.1 hal.2]
      exact fun hc => ElfReadErr.noConfusion (Except.error.inj hc)
    · have hok : elemAlign ≤ 1 ∨ addr % elemAlign = 0 := by
        by_cases h1 : 1 < elemAlign
        · right
          by_contra hmod
          exact hal ⟨h1, hmod⟩
        · left
          omega
      rw [c3 h hok]
      exact fun hc => Except.noConfusion hc

theorem c9_load_slice_checks_witness :
    0 < 24 ∧
    ((List.replicate 23 (0 : Nat)).length < 24 * 1 →
      loadSlice 24 8 decSym 0 (List.replicate 23 0) 1 "symbols" =
        .error (.regionOutOfBounds (24 * 1) (List.replicate 23 (0 : Nat)).length
          "symbols")) ∧
    (24 * 1 ≤ (List.replicate 23 (0 : Nat)).length → 1 < 8 → 0 % 8 ≠ 0 →
      loadSlice 24 8 decSym 0 (List.replicate 23 0) 1 "symbols" =
        .error (.unalignedInput 8 (trailingZeros64 0))) ∧
    (24 * 1 ≤ (List.replicate 23 (0 : Nat)).length → (8 ≤ 1 ∨ 0 % 8 = 0) →
      loadSlice 24 8 decSym 0 (List.replicate 23 0) 1 "symbols" =
        .ok ((List.range 1).map
          (fun i => decSym (bslice (List.replicate 23 0) (24 * i) 24)))) ∧
    (∀ msg, loadSlice 24 8 decSym 0 (List.replicate 23 0) 1 "symbols" ≠
      .error (.panicked msg)) :=
  ⟨by decide, (c9_load_slice_checks 24 8 0 1 (List.replicate 23 0) decSym
    "symbols" (by decide)).1,
   (c9_load_slice_checks 24 8 0 1 (List.replicate 23 0) decSym
    "symbols" (by decide)).2.1,
   (c9_load_slice_checks 24 8 0 1 (List.replicate 23 0) decSym
    "symbols" (by decide)).2.2.1,
   (c9_load_slice_checks 24 8 0 1 (List.replicate 23 0) decSym
    "symbols" (by decide)).2.2.2⟩

/-- `elven_parser::write::WriteElfError`, plus `asserted` for the `assert_eq!`
/ `unwrap` / slice-indexing panics in `layout`/`write`, which are not error
values in the source. -/
inductive WriteErr where
  | tooMany (what : String)
  | asserted (which : String)
  deriving DecidableEq, Repr

/-- `elven_parser::write::Section`. -/
structure WSection where
  name : Nat
  typ : Nat
  flags : Nat
  fixedEntsize : Option Nat
  addrAlign : Option Nat
  content : List Nat
  deriving DecidableEq, Repr

/-- `elven_parser::write::ProgramHeader` (its offset is section-relative). -/
structure WPh where
  typ : Nat
  flags : Nat
  offSection : Nat
  offRel : Nat
  vaddr : Nat
  paddr : Nat
  filesz : Nat
  memsz : Nat
  align : Nat
  deriving DecidableEq, Repr

/-- `elven_parser::write::ElfWriter`. -/
structure WState where
  header : ElfHeaderR
  sections : List WSection
  phs : List WPh
  deriving DecidableEq, Repr

/-- `elven_parser::write::Header`, the caller-supplied template. -/
structure HeaderTmpl where
  ident : ElfIdentR
  typ : Nat
  mach : Nat
  deriving DecidableEq, Repr

/-- The always-present null section (ordinal 0). -/
def nullWSection : WSection :=
  { name := 0, typ := 0, flags := 0, fixedEntsize := none, addrAlign := none,
    content := [] }

/-- The bytes of `".shstrtab"`. -/
def shstrtabName : List Nat := [46, 115, 104, 115, 116, 114, 116, 97, 98]

/-- The always-present section-name string table (ordinal 1), pre-seeded with
`b"\0.shstrtab\0"`. -/
def shstrtabWSection : WSection :=
  { name := 1, typ := 3, flags := 0, fixedEntsize := none, addrAlign := none,
    content := 0 :: (shstrtabName ++ [0]) }

/-- `ElfWriter::new`. -/
def writerNew (t : HeaderTmpl) : WState :=
  { header :=
      { ident := t.ident, typ := t.typ, mach := t.mach, ver := 1,
        entry := 0x3333333333333333, phoff := 0, shoff := 0,
        flags := 0xFFFFFFFF, ehsize := 64, phentsize := 56, phnum := 0x3333,
        shentsize := 64, shnum := 0x3333, shstrndex := 1 },
    sections := [nullWSection, shstrtabWSection],
    phs := [] }

/-- `ElfWriter::set_entry`. -/
def setEntry (s : WState) (e : Nat) : WState :=
  { s with header := { s.header with entry := e } }

def modifyAt (f : α → α) : Nat → List α → List α
  | _, [] => []
  | 0, x :: rest => f x :: rest
  | n + 1, x :: rest => x :: modifyAt f n rest

/-- `ElfWriter::add_sh_string`: appends `bytes + nul` to section ordinal 1 and
returns the start index of the appended bytes. -/
def addShString (s : WState) (content : List Nat) : WState × Nat :=
  let idx := match s.sections.get? 1 with
    | some sec => sec.content.length
    | none => 0
  let extend := fun (sec : WSection) =>
    { sec with content := sec.content ++ content ++ [0] }
  ({ s with sections := modifyAt extend 1 s.sections }, idx)

/-- `ElfWriter::add_section`: pushes the section and returns its ordinal,
failing if the ordinal would not fit the u16 section index. -/
def addSection (s : WState) (sec : WSection) :
    Except WriteErr (WState × Nat) :=
  let len := s.sections.length
  if len ≤ 0xFFFF then
    .ok ({ s with sections := s.sections ++ [sec] }, len)
  else
    .error (.tooMany "sections")

/-- `ElfWriter::add_program_header`. -/
def addProgramHeader (s : WState) (ph : WPh) : WState :=
  { s with phs := s.phs ++ [ph] }

/-- `Layout::sh_offset`: header size plus the program-header table. -/
def shOffsetOf (phAmount : Nat) : Nat := 64 + phAmount * 56

/-- `Layout::section_contents_offset`. -/
def sectionContentsOffsetOf (phAmount shAmount : Nat) : Nat :=
  shOffsetOf phAmount + shAmount * 64

/-- The declared alignment of a writer section, defaulting to 1
(`section.addr_align.map(NonZeroU64::get).unwrap_or(1)`). -/
def alignOf (sec : WSection) : Nat := sec.addrAlign.getD 1

/-- The offset-assignment loop of `ElfWriter::layout`: zero-content sections
get offset 0; others are aligned up from the running cursor (declared
alignment, default 1), which then advances past the content (wrapping u64). -/
def layoutOffsets (cur : Nat) : List WSection → List Nat
  | [] => []
  | sec :: rest =>
    if sec.content.length = 0 then 0 :: layoutOffsets cur rest
    else
      writeAlignUp cur (alignOf sec) ::
        layoutOffsets ((writeAlignUp cur (alignOf sec) + sec.content.length) % U64)
          rest

theorem layoutOffsets_length (cur : Nat) (secs : List WSection) :
    (layoutOffsets cur secs).length = secs.length := by
  induction secs generalizing cur with
  | nil => rfl
  | cons sec rest ih =>
    unfold layoutOffsets
    split <;> simp [ih]

/-- `ElfWriter::layout`: offsets plus the end offset taken from the LAST
section (its offset plus its content length — `.last().unwrap()`, `none`
models the panic on an empty section list). -/
def layoutElf (s : WState) : Option (List Nat × Nat) :=
  let offs := layoutOffsets
    (sectionContentsOffsetOf s.phs.length s.sections.length) s.sections
  match s.sections.getLast?, offs.getLast? with
  | some lastSec, some lastOff => some (offs, lastOff + lastSec.content.length)
  | _, _ => none

/-- The null `Shdr` record hardcoded by `ElfWriter::write`. -/
def nullShdr : ShdrR :=
  { name := 0, typ := 0, flags := 0, addr := 0, offset := 0, size := 0,
    link := 0, info := 0, addralign := 0, entsize := 0 }

/-- The `Shdr` record `ElfWriter::write` emits for a section at its laid-out
offset (addr/link/info/addralign are written as zero). -/
def shdrOf (sec : WSection) (off : Nat) : ShdrR :=
  { name := sec.name, typ := sec.typ, flags := sec.flags, addr := 0,
    offset := off, size := sec.content.length, link := 0, info := 0,
    addralign := 0, entsize := sec.fixedEntsize.getD 0 }

/-- The program-header serialization loop: resolve each section-relative
offset against the layout (slice indexing: a bad ordinal is a panic) and
serialize the absolute record. -/
def phBytes (offsets : List Nat) : List WPh → Except WriteErr (List Nat)
  | [] => .ok []
  | ph :: rest =>
    match offsets.get? ph.offSection with
    | none => .error (.asserted "program header section ordinal out of range")
    | some so => do
      let tl ← phBytes offsets rest
      return encPhdr
        { typ := ph.typ, flags := ph.flags, offset := (so + ph.offRel) % U64,
          vaddr := ph.vaddr, paddr := ph.paddr, filesz := ph.filesz,
          memsz := ph.memsz, align := ph.align } ++ tl

/-- The section-header serialization loop (ordinals 1..). -/
def shdrsBytes : List (WSection × Nat) → List Nat
  | [] => []
  | (sec, off) :: rest => encShdr (shdrOf sec off) ++ shdrsBytes rest

/-- The content serialization loop: skip empty sections, pad each non-empty
section from the current position up to its laid-out offset (the usize
subtraction underflows — a panic in debug, an absurd huge pad in release —
if the offset were behind the cursor; modelled as `asserted`). -/
def contentBytes (cur : Nat) : List (WSection × Nat) → Except WriteErr (List Nat)
  | [] => .ok []
  | (sec, off) :: rest =>
    if sec.content.length = 0 then contentBytes cur rest
    else if off < cur then .error (.asserted "content offset underflow")
    else do
      let tl ← contentBytes (off + sec.content.length) rest
      return List.replicate (off - cur) 0 ++ sec.content ++ tl

/-- The header record `ElfWriter::write` serializes: the stored template with
the final section/program-header counts and table offsets filled in. -/
def writeHeader (s : WState) : ElfHeaderR :=
  { s.header with
    shnum := s.sections.length, phnum := s.phs.length,
    phoff := if s.phs.length ≠ 0 then 64 else s.header.phoff,
    shoff := if s.sections.length ≠ 0 then shOffsetOf s.phs.length
             else s.header.shoff }

/-- `ElfWriter::write`: count checks, layout, then serialization of header,
program headers, section headers and contents, with the source's
`assert_eq!` checkpoints. -/
def writeElf (s : WState) : Except WriteErr (List Nat) := do
  if s.sections.length > 0xFFFF then throw (.tooMany "sections")
  else if s.phs.length > 0xFFFF then throw (.tooMany "program headers")
  else
    match layoutElf s with
    | none => throw (.asserted "layout last unwrap")
    | some (offsets, endOffset) =>
      let phb ← phBytes offsets s.phs
      let out1 := encEhdr (writeHeader s) ++ phb
      if out1.length ≠ shOffsetOf s.phs.length then
        throw (.asserted "output length vs sh_offset")
      else
        let out2 := out1 ++ (encShdr nullShdr ++
          shdrsBytes ((s.sections.drop 1).zip (offsets.drop 1)))
        if out2.length ≠
            sectionContentsOffsetOf s.phs.length s.sections.length then
          throw (.asserted "output length vs section_contents_offset")
        else
          let cont ← contentBytes out2.length (s.sections.zip offsets)
          let out3 := out2 ++ cont
          if out3.length ≠ endOffset then
            throw (.asserted "output length vs section_content_end_offset")
          else
            return out3

theorem writeAlignUp_def (n a : Nat) : writeAlignUp n a =
    if n &&& (a - 1) = 0 then n else (n - (n &&& (a - 1)) + a) % U64 := rfl

theorem writeAlignUp_ge {n a : Nat} (ha : 0 < a) (hov : n + a ≤ U64) :
    n ≤ writeAlignUp n a := by
  rw [writeAlignUp_def]
  split
  · exact Nat.le_refl n
  · rename_i hm
    have h1 : n &&& (a - 1) ≤ a - 1 := Nat.and_le_right
    have h2 : n &&& (a - 1) ≤ n := Nat.and_le_left
    have h3 : n - (n &&& (a - 1)) + a < U64 := by omega
    rw [Nat.mod_eq_of_lt h3]
    omega

theorem writeAlignUp_le {n a : Nat} (ha : 0 < a) (hov : n + a ≤ U64) :
    writeAlignUp n a ≤ n + a - 1 := by
  rw [writeAlignUp_def]
  split
  · omega
  · rename_i hm
    have h1 : n &&& (a - 1) ≤ a - 1 := Nat.and_le_right
    have h2 : n &&& (a - 1) ≤ n := Nat.and_le_left
    have h3 : n - (n &&& (a - 1)) + a < U64 := by omega
    rw [Nat.mod_eq_of_lt h3]
    omega

/-- An overflow budget for the layout loop: aligning and placing each section
advances the cursor by at most this much. -/
def layoutBound : List WSection → Nat
  | [] => 0
  | sec :: rest => alignOf sec + sec.content.length + layoutBound rest

theorem alignOf_pos {sec : WSection} (h : isPow2 (alignOf sec) = true) :
    0 < alignOf sec := by
  obtain ⟨k, _, hk⟩ := isPow2_iff.1 h
  rw [hk]
  exact Nat.pos_pow_of_pos k (by norm_num)

/-- The cursor value after the layout loop. -/
def layoutFinal (cur : Nat) : List WSection → Nat
  | [] => cur
  | sec :: rest =>
    if sec.content.length = 0 then layoutFinal cur rest
    else
      layoutFinal ((writeAlignUp cur (alignOf sec) + sec.content.length) % U64)
        rest

theorem layoutFinal_mono (secs : List WSection) (cur : Nat)
    (hali : ∀ sec ∈ secs, isPow2 (alignOf sec))
    (hov : cur + layoutBound secs ≤ U64) :
    cur ≤ layoutFinal cur secs ∧ layoutFinal cur secs ≤ cur + layoutBound secs := by
  induction secs generalizing cur with
  | nil => simp [layoutFinal]
  | cons sec rest ih =>
    have hsec : isPow2 (alignOf sec) := hali sec (List.mem_cons_self _ _)
    have hrest : ∀ x ∈ rest, isPow2 (alignOf x) :=
      fun x hx => hali x (List.mem_cons_of_mem _ hx)
    have hpos : 0 < alignOf sec := alignOf_pos hsec
    have hexp : layoutBound (sec :: rest) =
      alignOf sec + sec.content.length + layoutBound rest := rfl
    unfold layoutFinal
    split
    · rename_i hz
      have := ih cur hrest (by omega)
      constructor <;> omega
    · rename_i hz
      have hub : writeAlignUp cur (alignOf sec) ≤ cur + alignOf sec - 1 :=
        writeAlignUp_le hpos (by omega)
      have hlb : cur ≤ writeAlignUp cur (alignOf sec) :=
        writeAlignUp_ge hpos (by omega)
      have hmod : (writeAlignUp cur (alignOf sec) + sec.content.length) % U64 =
          writeAlignUp cur (alignOf sec) + sec.content.length := by
        apply Nat.mod_eq_of_lt
        omega
      rw [hmod]
      have := ih (writeAlignUp cur (alignOf sec) + sec.content.length) hrest
        (by omega)
      constructor <;> omega

theorem writeAlignUp_dvd {n a : Nat} (ha : isPow2 a = true)
    (hov : n + a ≤ U64) : a ∣ writeAlignUp n a := by
  rw [writeAlignUp_eq ha hov]
  exact roundUp_dvd n a

theorem layoutBound_cons (sec : WSection) (rest : List WSection) :
    layoutBound (sec :: rest) =
      alignOf sec + sec.content.length + layoutBound rest := rfl

/-- Per-section properties of the layout loop: zero-content sections get
offset 0; non-zero sections get an offset that is aligned, at or after the
running cursor, and whose content range ends by the final cursor. -/
theorem layoutOffsets_props (secs : List WSection) (cur : Nat)
    (hali : ∀ sec ∈ secs, isPow2 (alignOf sec))
    (hov : cur + layoutBound secs ≤ U64) :
    ∀ i sec, secs.get? i = some sec →
      ∃ off, (layoutOffsets cur secs).get? i = some off ∧
        (sec.content.length = 0 → off = 0) ∧
        (sec.content.length ≠ 0 →
          alignOf sec ∣ off ∧ cur ≤ off ∧
          off + sec.content.length ≤ layoutFinal cur secs) := by
  induction secs generalizing cur with
  | nil =>
    intro i sec hget
    simp at hget
  | cons sec0 rest ih =>
    intro i sec hget
    have hsec0 : isPow2 (alignOf sec0) := hali sec0 (List.mem_cons_self _ _)
    have hrest : ∀ x ∈ rest, isPow2 (alignOf x) :=
      fun x hx => hali x (List.mem_cons_of_mem _ hx)
    have hpos : 0 < alignOf sec0 := alignOf_pos hsec0
    rw [layoutBound_cons] at hov
    by_cases hz : sec0.content.length = 0
    · have hoffs : layoutOffsets cur (sec0 :: rest) =
        0 :: layoutOffsets cur rest := by
        conv_lhs => unfold layoutOffsets
        rw [if_pos hz]
      have hfin : layoutFinal cur (sec0 :: rest) = layoutFinal cur rest := by
        conv_lhs => unfold layoutFinal
        rw [if_pos hz]
      match i with
      | 0 =>
        refine ⟨0, by rw [hoffs]; rfl, fun _ => rfl, fun hne => ?_⟩
        simp at hget
        subst hget
        exact absurd hz hne
      | Nat.succ j =>
        simp only [List.get?_cons_succ] at hget
        obtain ⟨off, h1, h2, h3⟩ := ih cur hrest (by omega) j sec hget
        refine ⟨off, by rw [hoffs]; exact h1, h2, fun hne => ?_⟩
        obtain ⟨d1, d2, d3⟩ := h3 hne
        exact ⟨d1, d2, by rw [hfin]; exact d3⟩
    · have hub : writeAlignUp cur (alignOf sec0) ≤ cur + alignOf sec0 - 1 :=
        writeAlignUp_le hpos (by omega)
      have hlb : cur ≤ writeAlignUp cur (alignOf sec0) :=
        writeAlignUp_ge hpos (by omega)
      have hmod : (writeAlignUp cur (alignOf sec0) + sec0.content.length) % U64 =
          writeAlignUp cur (alignOf sec0) + sec0.content.length :=
        Nat.mod_eq_of_lt (by omega)
      have hoffs : layoutOffsets cur (sec0 :: rest) =
          writeAlignUp cur (alignOf sec0) ::
            layoutOffsets
              (writeAlignUp cur (alignOf sec0) + sec0.content.length) rest := by
        conv_lhs => unfold layoutOffsets
        rw [if_neg hz, hmod]
      have hfin : layoutFinal cur (sec0 :: rest) =
          layoutFinal (writeAlignUp cur (alignOf sec0) + sec0.content.length)
            rest := by
        conv_lhs => unfold layoutFinal
        rw [if_neg hz, hmod]
      have hovr : writeAlignUp cur (alignOf sec0) + sec0.content.length +
          layoutBound rest ≤ U64 := by omega
      match i with
      | 0 =>
        simp at hget
        subst hget
        refine ⟨writeAlignUp cur (alignOf sec0), by rw [hoffs]; rfl,
          fun h0 => absurd h0 hz, fun _ => ?_⟩
        refine ⟨writeAlignUp_dvd hsec0 (by omega), hlb, ?_⟩
        rw [hfin]
        exact (layoutFinal_mono rest _ hrest hovr).1
      | Nat.succ j =>
        simp only [List.get?_cons_succ] at hget
        obtain ⟨off, h1, h2, h3⟩ :=
          ih (writeAlignUp cur (alignOf sec0) + sec0.content.length) hrest hovr
            j sec hget
        refine ⟨off, by rw [hoffs]; exact h1, h2, fun hne => ?_⟩
        obtain ⟨d1, d2, d3⟩ := h3 hne
        exact ⟨d1, by omega, by rw [hfin]; exact d3⟩

/-- Non-empty sections are laid out in strictly increasing, pairwise-disjoint
file ranges. -/
theorem layoutOffsets_disjoint (secs : List WSection) (cur : Nat)
    (hali : ∀ sec ∈ secs, isPow2 (alignOf sec))
    (hov : cur + layoutBound secs ≤ U64) :
    ∀ i j seci secj offi offj, i < j →
      secs.get? i = some seci → secs.get? j = some secj →
      (layoutOffsets cur secs).get? i = some offi →
      (layoutOffsets cur secs).get? j = some offj →
      seci.content.length ≠ 0 → secj.content.length ≠ 0 →
      offi + seci.content.length ≤ offj := by
  induction secs generalizing cur with
  | nil =>
    intro i j seci secj offi offj hij hgi
    simp at hgi
  | cons sec0 rest ih =>
    intro i j seci secj offi offj hij hgi hgj hoi hoj hnei hnej
    have hsec0 : isPow2 (alignOf sec0) := hali sec0 (List.mem_cons_self _ _)
    have hrest : ∀ x ∈ rest, isPow2 (alignOf x) :=
      fun x hx => hali x (List.mem_cons_of_mem _ hx)
    have hpos : 0 < alignOf sec0 := alignOf_pos hsec0
    rw [layoutBound_cons] at hov
    obtain ⟨j1, rfl⟩ : ∃ j1, j = j1 + 1 := ⟨j - 1, by omega⟩
    simp only [List.get?_cons_succ] at hgj
    by_cases hz : sec0.content.length = 0
    · have hoffs : layoutOffsets cur (sec0 :: rest) =
          0 :: layoutOffsets cur rest := by
        conv_lhs => unfold layoutOffsets
        rw [if_pos hz]
      rw [hoffs] at hoi hoj
      simp only [List.get?_cons_succ] at hoj
      match i with
      | 0 =>
        simp at hgi
        subst hgi
        exact absurd hz hnei
      | Nat.succ i1 =>
        simp only [List.get?_cons_succ] at hgi hoi
        exact ih cur hrest (by omega) i1 j1 seci secj offi offj (by omega)
          hgi hgj hoi hoj hnei hnej
    · have hub : writeAlignUp cur (alignOf sec0) ≤ cur + alignOf sec0 - 1 :=
        writeAlignUp_le hpos (by omega)
      have hlb : cur ≤ writeAlignUp cur (alignOf sec0) :=
        writeAlignUp_ge hpos (by omega)
      have hmod : (writeAlignUp cur (alignOf sec0) + sec0.content.length) % U64 =
          writeAlignUp cur (alignOf sec0) + sec0.content.length :=
        Nat.mod_eq_of_lt (by omega)
      have hoffs : layoutOffsets cur (sec0 :: rest) =
          writeAlignUp cur (alignOf sec0) ::
            layoutOffsets
              (writeAlignUp cur (alignOf sec0) + sec0.content.length) rest := by
        conv_lhs => unfold layoutOffsets
        rw [if_neg hz, hmod]
      have hovr : writeAlignUp cur (alignOf sec0) + sec0.content.length +
          layoutBound rest ≤ U64 := by omega
      rw [hoffs] at hoi hoj
      simp only [List.get?_cons_succ] at hoj
      match i with
      | 0 =>
        simp at hgi hoi
        subst hgi
        subst hoi
        obtain ⟨off2, hoff2, _, hprops⟩ := layoutOffsets_props rest _ hrest hovr
          j1 secj hgj
        rw [hoj] at hoff2
        cases hoff2
        exact (hprops hnej).2.1
      | Nat.succ i1 =>
        simp only [List.get?_cons_succ] at hgi hoi
        exact ih _ hrest hovr i1 j1 seci secj offi offj (by omega)
          hgi hgj hoi hoj hnei hnej

/-- When the last section is non-empty, the final cursor equals the last
offset plus the last content length (the `section_content_end_offset`). -/
theorem layoutFinal_last (secs : List WSection) (cur : Nat)
    (hali : ∀ sec ∈ secs, isPow2 (alignOf sec))
    (hov : cur + layoutBound secs ≤ U64)
    (lastSec : WSection) (hlast : secs.getLast? = some lastSec)
    (hne : lastSec.content.length ≠ 0) :
    ∃ offLast, (layoutOffsets cur secs).getLast? = some offLast ∧
      layoutFinal cur secs = offLast + lastSec.content.length := by
  induction secs generalizing cur with
  | nil => simp at hlast
  | cons sec0 rest ih =>
    have hsec0 : isPow2 (alignOf sec0) := hali sec0 (List.mem_cons_self _ _)
    have hrest : ∀ x ∈ rest, isPow2 (alignOf x) :=
      fun x hx => hali x (List.mem_cons_of_mem _ hx)
    have hpos : 0 < alignOf sec0 := alignOf_pos hsec0
    rw [layoutBound_cons] at hov
    match rest with
    | [] =>
      simp at hlast
      subst hlast
      have hz : sec0.content.length ≠ 0 := hne
      have hmod : (writeAlignUp cur (alignOf sec0) + sec0.content.length) % U64 =
          writeAlignUp cur (alignOf sec0) + sec0.content.length := by
        apply Nat.mod_eq_of_lt
        have hub : writeAlignUp cur (alignOf sec0) ≤ cur + alignOf sec0 - 1 :=
          writeAlignUp_le hpos (by simp [layoutBound] at hov; omega)
        simp [layoutBound] at hov
        omega
      refine ⟨writeAlignUp cur (alignOf sec0), ?_, ?_⟩
      · conv_lhs => unfold layoutOffsets
        rw [if_neg hz]
        rfl
      · conv_lhs => unfold layoutFinal
        rw [if_neg hz]
        unfold layoutFinal
        exact hmod
    | y :: t =>
      have hlast2 : (y :: t).getLast? = some lastSec := by
        rw [← hlast]
        exact List.getLast?_cons_cons.symm
      by_cases hz : sec0.content.length = 0
      · have hoffs : layoutOffsets cur (sec0 :: y :: t) =
            0 :: layoutOffsets cur (y :: t) := by
          conv_lhs => unfold layoutOffsets
          rw [if_pos hz]
        have hfin : layoutFinal cur (sec0 :: y :: t) =
            layoutFinal cur (y :: t) := by
          conv_lhs => unfold layoutFinal
          rw [if_pos hz]
        obtain ⟨offLast, h1, h2⟩ := ih cur hrest (by omega) hlast2
        refine ⟨offLast, ?_, by rw [hfin]; exact h2⟩
        rw [hoffs]
        have hlen : (layoutOffsets cur (y :: t)).length = t.length + 1 := by
          rw [layoutOffsets_length]
          rfl
        obtain ⟨z, L, hzl⟩ : ∃ z L, layoutOffsets cur (y :: t) = z :: L := by
          match hh : layoutOffsets cur (y :: t) with
          | [] => rw [hh] at hlen; simp at hlen
          | z :: L => exact ⟨z, L, rfl⟩
        rw [hzl]
        rw [hzl] at h1
        rw [List.getLast?_cons_cons]
        exact h1
      · have hub : writeAlignUp cur (alignOf sec0) ≤ cur + alignOf sec0 - 1 :=
          writeAlignUp_le hpos (by omega)
        have hmod : (writeAlignUp cur (alignOf sec0) + sec0.content.length) % U64 =
            writeAlignUp cur (alignOf sec0) + sec0.content.length :=
          Nat.mod_eq_of_lt (by omega)
        have hoffs : layoutOffsets cur (sec0 :: y :: t) =
            writeAlignUp cur (alignOf sec0) ::
              layoutOffsets
                (writeAlignUp cur (alignOf sec0) + sec0.content.length)
                (y :: t) := by
          conv_lhs => unfold layoutOffsets
          rw [if_neg hz, hmod]
        have hfin : layoutFinal cur (sec0 :: y :: t) =
            layoutFinal (writeAlignUp cur (alignOf sec0) + sec0.content.length)
              (y :: t) := by
          conv_lhs => unfold layoutFinal
          rw [if_neg hz, hmod]
        obtain ⟨offLast, h1, h2⟩ :=
          ih (writeAlignUp cur (alignOf sec0) + sec0.content.length) hrest
            (by omega) hlast2
        refine ⟨offLast, ?_, by rw [hfin]; exact h2⟩
        rw [hoffs]
        have hlen : (layoutOffsets
            (writeAlignUp cur (alignOf sec0) + sec0.content.length)
            (y :: t)).length = t.length + 1 := by
          rw [layoutOffsets_length]
          rfl
        obtain ⟨z, L, hzl⟩ : ∃ z L, layoutOffsets
            (writeAlignUp cur (alignOf sec0) + sec0.content.length) (y :: t) =
            z :: L := by
          match hh : layoutOffsets
              (writeAlignUp cur (alignOf sec0) + sec0.content.length)
              (y :: t) with
          | [] => rw [hh] at hlen; simp at hlen
          | z :: L => exact ⟨z, L, rfl⟩
        rw [hzl]
        rw [hzl] at h1
        rw [List.getLast?_cons_cons]
        exact h1

theorem phBytes_ok (offsets : List Nat) (phs : List WPh)
    (h : ∀ ph ∈ phs, ph.offSection < offsets.length) :
    ∃ b, phBytes offsets phs = .ok b ∧ b.length = 56 * phs.length := by
  induction phs with
  | nil => exact ⟨[], rfl, rfl⟩
  | cons ph rest ih =>
    have hph : ph.offSection < offsets.length := h ph (List.mem_cons_self _ _)
    have hrest := ih (fun x hx => h x (List.mem_cons_of_mem _ hx))
    obtain ⟨b, hb, hlen⟩ := hrest
    obtain ⟨so, hso⟩ : ∃ so, offsets.get? ph.offSection = some so := by
      match hh : offsets.get? ph.offSection with
      | some so => exact ⟨so, rfl⟩
      | none => rw [List.get?_eq_none] at hh; omega
    refine ⟨encPhdr
      { typ := ph.typ, flags := ph.flags, offset := (so + ph.offRel) % U64,
        vaddr := ph.vaddr, paddr := ph.paddr, filesz := ph.filesz,
        memsz := ph.memsz, align := ph.align } ++ b, ?_, ?_⟩
    · unfold phBytes
      rw [hso, hb]
      rfl
    · rw [List.length_append, encPhdr_length, hlen, List.length_cons]
      ring

theorem shdrsBytes_length (pairs : List (WSection × Nat)) :
    (shdrsBytes pairs).length = 64 * pairs.length := by
  induction pairs with
  | nil => rfl
  | cons p rest ih =>
    obtain ⟨sec, off⟩ := p
    unfold shdrsBytes
    rw [List.length_append, encShdr_length, ih, List.length_cons]
    ring

/-- The content loop succeeds on a laid-out section list, produces exactly
`layoutFinal - cur` bytes, and places each non-empty section's content at its
assigned offset. -/
theorem contentBytes_ok (secs : List WSection) (cur : Nat)
    (hali : ∀ sec ∈ secs, isPow2 (alignOf sec))
    (hov : cur + layoutBound secs ≤ U64) :
    ∃ b, contentBytes cur (secs.zip (layoutOffsets cur secs)) = .ok b ∧
      cur + b.length = layoutFinal cur secs ∧
      (∀ i sec off, secs.get? i = some sec →
        (layoutOffsets cur secs).get? i = some off →
        sec.content.length ≠ 0 →
        bslice b (off - cur) sec.content.length = sec.content) := by
  induction secs generalizing cur with
  | nil =>
    refine ⟨[], rfl, by simp [layoutFinal], ?_⟩
    intro i sec off hget
    simp at hget
  | cons sec0 rest ih =>
    have hsec0 : isPow2 (alignOf sec0) := hali sec0 (List.mem_cons_self _ _)
    have hrest : ∀ x ∈ rest, isPow2 (alignOf x) :=
      fun x hx => hali x (List.mem_cons_of_mem _ hx)
    have hpos : 0 < alignOf sec0 := alignOf_pos hsec0
    rw [layoutBound_cons] at hov
    by_cases hz : sec0.content.length = 0
    · have hoffs : layoutOffsets cur (sec0 :: rest) =
          0 :: layoutOffsets cur rest := by
        conv_lhs => unfold layoutOffsets
        rw [if_pos hz]
      have hfin : layoutFinal cur (sec0 :: rest) = layoutFinal cur rest := by
        conv_lhs => unfold layoutFinal
        rw [if_pos hz]
      obtain ⟨b, hb, hblen, hplace⟩ := ih cur hrest (by omega)
      refine ⟨b, ?_, by rw [hfin]; exact hblen, ?_⟩
      · rw [hoffs]
        show contentBytes cur ((sec0, 0) :: rest.zip (layoutOffsets cur rest)) =
          .ok b
        unfold contentBytes
        rw [if_pos hz]
        exact hb
      · intro i sec off hget hoff hne
        rw [hoffs] at hoff
        match i with
        | 0 =>
          simp at hget
          subst hget
          exact absurd hz hne
        | Nat.succ j =>
          simp only [List.get?_cons_succ] at hget hoff
          exact hplace j sec off hget hoff hne
    · have hub : writeAlignUp cur (alignOf sec0) ≤ cur + alignOf sec0 - 1 :=
        writeAlignUp_le hpos (by omega)
      have hlb : cur ≤ writeAlignUp cur (alignOf sec0) :=
        writeAlignUp_ge hpos (by omega)
      have hmod : (writeAlignUp cur (alignOf sec0) + sec0.content.length) % U64 =
          writeAlignUp cur (alignOf sec0) + sec0.content.length :=
        Nat.mod_eq_of_lt (by omega)
      have hoffs : layoutOffsets cur (sec0 :: rest) =
          writeAlignUp cur (alignOf sec0) ::
            layoutOffsets
              (writeAlignUp cur (alignOf sec0) + sec0.content.length) rest := by
        conv_lhs => unfold layoutOffsets
        rw [if_neg hz, hmod]
      have hfin : layoutFinal cur (sec0 :: rest) =
          layoutFinal (writeAlignUp cur (alignOf sec0) + sec0.content.length)
            rest := by
        conv_lhs => unfold layoutFinal
        rw [if_neg hz, hmod]
      set off0 := writeAlignUp cur (alignOf sec0) with hoff0
      set cur2 := off0 + sec0.content.length with hcur2
      obtain ⟨b, hb, hblen, hplace⟩ := ih cur2 hrest (by omega)
      refine ⟨List.replicate (off0 - cur) 0 ++ sec0.content ++ b, ?_, ?_, ?_⟩
      · rw [hoffs]
        show contentBytes cur
          ((sec0, off0) :: rest.zip (layoutOffsets cur2 rest)) = _
        unfold contentBytes
        rw [if_neg hz, if_neg (by omega), hb]
        rfl
      · rw [hfin]
        simp only [List.length_append, List.length_replicate]
        omega
      · intro i sec off hget hoff hne
        rw [hoffs] at hoff
        match i with
        | 0 =>
          simp at hget hoff
          subst hget
          subst hoff
          unfold bslice
          rw [List.append_assoc, List.drop_append_eq_append_drop,
            List.drop_eq_nil_of_le (by rw [List.length_replicate]),
            List.nil_append, List.length_replicate, Nat.sub_self,
            List.drop_zero, List.take_left' rfl]
        | Nat.succ j =>
          simp only [List.get?_cons_succ] at hget hoff
          have hge : cur2 ≤ off := by
            obtain ⟨off2, ho2, _, hpr⟩ := layoutOffsets_props rest cur2 hrest
              (by omega) j sec hget
            rw [hoff] at ho2
            cases ho2
            exact (hpr hne).2.1
          have hplace2 := hplace j sec off hget hoff hne
          have hdrop : List.drop (off - cur)
              (List.replicate (off0 - cur) 0 ++ sec0.content ++ b) =
              List.drop (off - cur2) b := by
            rw [List.drop_append_eq_append_drop,
              List.drop_eq_nil_of_le
                (by simp only [List.length_append, List.length_replicate]
                    omega),
              List.nil_append]
            congr 1
            simp only [List.length_append, List.length_replicate]
            omega
          unfold bslice at hplace2 ⊢
          rw [hdrop]
          exact hplace2

/-- `Layout::section_contents_offset` of a writer state. -/
def coOf (s : WState) : Nat :=
  sectionContentsOffsetOf s.phs.length s.sections.length

/-- The section content offsets `ElfWriter::layout` computes for a state. -/
def offsOf (s : WState) : List Nat := layoutOffsets (coOf s) s.sections

/-- The serialized section-header table (null entry plus ordinals 1..). -/
def shBlockOf (s : WState) : List Nat :=
  encShdr nullShdr ++ shdrsBytes ((s.sections.drop 1).zip ((offsOf s).drop 1))

theorem shBlockOf_length (s : WState) (hne : s.sections ≠ []) :
    (shBlockOf s).length = 64 * s.sections.length := by
  unfold shBlockOf
  rw [List.length_append, encShdr_length, shdrsBytes_length,
    List.length_zip, List.length_drop, List.length_drop]
  unfold offsOf
  rw [layoutOffsets_length]
  have : 0 < s.sections.length := List.length_pos.2 hne
  omega

/-- Success and shape of `ElfWriter::write` under the conditions that make
all of its internal assertions pass: non-empty section list whose last
section has content, counts fitting u16, power-of-two declared alignments,
program headers referencing existing ordinals, and no u64 overflow. -/
theorem writeElf_structure (s : WState) (lastSec : WSection)
    (hlast : s.sections.getLast? = some lastSec)
    (hlastne : lastSec.content.length ≠ 0)
    (hcnt : s.sections.length ≤ 0xFFFF) (hpcnt : s.phs.length ≤ 0xFFFF)
    (hali : ∀ sec ∈ s.sections, isPow2 (alignOf sec))
    (hphp : ∀ ph ∈ s.phs, ph.offSection < s.sections.length)
    (hov : coOf s + layoutBound s.sections ≤ U64) :
    ∃ phb cont offLast,
      phBytes (offsOf s) s.phs = .ok phb ∧ phb.length = 56 * s.phs.length ∧
      contentBytes (coOf s) (s.sections.zip (offsOf s)) = .ok cont ∧
      (offsOf s).getLast? = some offLast ∧
      writeElf s = .ok (((encEhdr (writeHeader s) ++ phb) ++ shBlockOf s) ++ cont) ∧
      coOf s + cont.length = offLast + lastSec.content.length ∧
      (((encEhdr (writeHeader s) ++ phb) ++ shBlockOf s) ++ cont).length =
        offLast + lastSec.content.length := by
  have hsecne : s.sections ≠ [] := by
    intro h
    rw [h] at hlast
    simp at hlast
  have hslen : 0 < s.sections.length := List.length_pos.2 hsecne
  have hoffslen : (offsOf s).length = s.sections.length := by
    unfold offsOf
    exact layoutOffsets_length _ _
  obtain ⟨phb, hphb, hphblen⟩ := phBytes_ok (offsOf s) s.phs (by
    intro ph hph
    rw [hoffslen]
    exact hphp ph hph)
  obtain ⟨cont, hcont, hcontlen, _⟩ :=
    contentBytes_ok s.sections (coOf s) hali hov
  obtain ⟨offLast, hoffLast, hfinlast⟩ :=
    layoutFinal_last s.sections (coOf s) hali hov lastSec hlast hlastne
  have hcont2 : contentBytes (coOf s) (s.sections.zip (offsOf s)) =
    .ok cont := hcont
  refine ⟨phb, cont, offLast, hphb, hphblen, ?_, ?_, ?_, ?_, ?_⟩
  · exact hcont
  · exact hoffLast
  · have hlayout : layoutElf s =
        some (offsOf s, offLast + lastSec.content.length) := by
      unfold layoutElf
      show (match s.sections.getLast?, (offsOf s).getLast? with
        | some lastSec2, some lastOff =>
          some (offsOf s, lastOff + lastSec2.content.length)
        | _, _ => none) = _
      rw [hlast]
      unfold offsOf
      rw [hoffLast]
    unfold writeElf
    rw [if_neg (by omega)]
    rw [if_neg (by omega)]
    rw [hlayout]
    show (phBytes (offsOf s) s.phs >>= fun phb => _) = _
    rw [hphb]
    show (if (encEhdr (writeHeader s) ++ phb).length ≠ shOffsetOf s.phs.length
      then _ else _) = _
    have hlen1 : (encEhdr (writeHeader s) ++ phb).length =
        shOffsetOf s.phs.length := by
      rw [List.length_append, encEhdr_length, hphblen]
      unfold shOffsetOf
      ring
    rw [if_neg (by rw [hlen1]; exact fun hc => hc rfl)]
    have hlen2 : ((encEhdr (writeHeader s) ++ phb) ++ (encShdr nullShdr ++
        shdrsBytes ((s.sections.drop 1).zip ((offsOf s).drop 1)))).length =
        coOf s := by
      rw [List.length_append, hlen1]
      have := shBlockOf_length s hsecne
      unfold shBlockOf at this
      rw [this]
      unfold coOf sectionContentsOffsetOf
      ring
    rw [if_neg (by rw [hlen2]; exact fun hc => hc rfl)]
    rw [hlen2, hcont2]
    show (if _ ≠ _ then _ else _) = _
    have hlen3 : (((encEhdr (writeHeader s) ++ phb) ++ (encShdr nullShdr ++
        shdrsBytes ((s.sections.drop 1).zip ((offsOf s).drop 1)))) ++
        cont).length = offLast + lastSec.content.length := by
      rw [List.length_append, hlen2, ← hfinlast]
      exact hcontlen
    rw [if_neg (by rw [hlen3]; exact fun hc => hc rfl)]
    rfl
  · rw [hcontlen, hfinlast]
  · rw [List.length_append]
    have hlen2 : ((encEhdr (writeHeader s) ++ phb) ++ shBlockOf s).length =
        coOf s := by
      rw [List.length_append, List.length_append, encEhdr_length, hphblen,
        shBlockOf_length s hsecne]
      unfold coOf sectionContentsOffsetOf shOffsetOf
      ring
    rw [hlen2, ← hfinlast]
    omega

/-- Claim C2 (amended): for every ElfWriter state whose program headers
reference existing section ordinals, whose declared section alignments are
powers of two, whose section/program-header counts fit u16, whose total
laid-out size stays below 2^64, and whose LAST section has non-empty content,
`write()` succeeds; it assigns each zero-content section file offset 0
(contributing no bytes), assigns every non-zero-content section an offset
honoring its declared (or default) alignment and lying at or after the end
of the header/program-header-table/section-header-table region, non-empty
sections occupy pairwise disjoint ranges, and the returned byte vector's
total length equals the last section's end offset exactly. -/
theorem c2_write_layout (s : WState) (lastSec : WSection)
    (hlast : s.sections.getLast? = some lastSec)
    (hlastne : lastSec.content ≠ [])
    (hcnt : s.sections.length ≤ 0xFFFF) (hpcnt : s.phs.length ≤ 0xFFFF)
    (hali : ∀ sec ∈ s.sections, isPow2 (alignOf sec))
    (hphp : ∀ ph ∈ s.phs, ph.offSection < s.sections.length)
    (hov : coOf s + layoutBound s.sections ≤ U64) :
    ∃ out, writeElf s = .ok out ∧
      (∀ i sec, s.sections.get? i = some sec → sec.content = [] →
        (offsOf s).get? i = some 0) ∧
      (∀ i sec off, s.sections.get? i = some sec →
        (offsOf s).get? i = some off → sec.content ≠ [] →
        alignOf sec ∣ off ∧ coOf s ≤ off) ∧
      (∀ i j seci secj offi offj, i < j →
        s.sections.get? i = some seci → s.sections.get? j = some secj →
        (offsOf s).get? i = some offi → (offsOf s).get? j = some offj →
        seci.content ≠ [] → secj.content ≠ [] →
        offi + seci.content.length ≤ offj) ∧
      (∀ offLast, (offsOf s).getLast? = some offLast →
        out.length = offLast + lastSec.content.length) := by
  have hlastne2 : lastSec.content.length ≠ 0 := by
    intro h
    exact hlastne (List.length_eq_zero.1 h)
  obtain ⟨phb, cont, offLast, hphb, hphblen, hcont, hoffLast, hw, hclen,
    hwlen⟩ := writeElf_structure s lastSec hlast hlastne2 hcnt hpcnt hali
      hphp hov
  refine ⟨_, hw, ?_, ?_, ?_, ?_⟩
  · intro i sec hget hempty
    obtain ⟨off, h1, h2, _⟩ := layoutOffsets_props s.sections (coOf s) hali
      hov i sec hget
    have hz : sec.content.length = 0 := by rw [hempty]; rfl
    rw [h2 hz] at h1
    exact h1
  · intro i sec off hget hoff hne
    have hz : sec.content.length ≠ 0 := by
      intro h
      exact hne (List.length_eq_zero.1 h)
    obtain ⟨off2, h1, _, h3⟩ := layoutOffsets_props s.sections (coOf s) hali
      hov i sec hget
    have : (offsOf s).get? i = some off2 := h1
    rw [hoff] at this
    cases this
    obtain ⟨d1, d2, _⟩ := h3 hz
    exact ⟨d1, d2⟩
  · intro i j seci secj offi offj hij hgi hgj hoi hoj hnei hnej
    have hzi : seci.content.length ≠ 0 := by
      intro h
      exact hnei (List.length_eq_zero.1 h)
    have hzj : secj.content.length ≠ 0 := by
      intro h
      exact hnej (List.length_eq_zero.1 h)
    exact layoutOffsets_disjoint s.sections (coOf s) hali hov i j seci secj
      offi offj hij hgi hgj hoi hoj hzi hzj
  · intro offLast2 hoffLast2
    have : some offLast = some offLast2 := by rw [← hoffLast, hoffLast2]
    cases this
    exact hwlen

def isOkE (e : Except ε α) : Bool :=
  match e with
  | .ok _ => true
  | .error _ => false

/-- The header template the linker uses (`create_elf`). -/
def c2tmpl : HeaderTmpl := { ident := magicIdent, typ := 2, mach := 62 }

def c2zeroSec : WSection :=
  { name := 0, typ := 1, flags := 0, fixedEntsize := none, addrAlign := none,
    content := [] }

def c2mis6Sec : WSection :=
  { name := 0, typ := 1, flags := 0, fixedEntsize := none,
    addrAlign := some 6, content := [42] }

def c2stateZero : WState :=
  match addSection (writerNew c2tmpl) c2zeroSec with
  | .ok (st, _) => st
  | .error _ => writerNew c2tmpl

def c2stateMis : WState :=
  match addSection (writerNew c2tmpl) c2mis6Sec with
  | .ok (st, _) => st
  | .error _ => writerNew c2tmpl

def c2statePh : WState :=
  addProgramHeader (writerNew c2tmpl)
    { typ := 1, flags := 4, offSection := 7, offRel := 0, vaddr := 0,
      paddr := 0, filesz := 0, memsz := 0, align := 4096 }

/-- Claim C2, counterexample to the claim as stated ("for every ElfWriter
state"): (i) a state whose last section has zero content makes `write()`
panic on its final length assertion (the recorded end offset is 0) instead of
returning a byte vector; (ii) a declared non-power-of-two alignment (6) gets
an assigned offset (272) that does not honor it, since `align_up` only works
for powers of two; (iii) a program header referencing a nonexistent section
ordinal makes `write()` panic on slice indexing. -/
theorem c2_write_layout_counterexample :
    writeElf c2stateZero =
      .error (.asserted "output length vs section_content_end_offset") ∧
    isOkE (writeElf c2stateMis) = true ∧
    c2stateMis.sections.get? 2 = some c2mis6Sec ∧
    c2mis6Sec.addrAlign = some 6 ∧
    (offsOf c2stateMis).get? 2 = some 272 ∧
    ¬ (6 ∣ 272) ∧
    writeElf c2statePh =
      .error (.asserted "program header section ordinal out of range") := by
  refine ⟨by decide, by decide, by decide, by decide, by decide, by decide,
    by decide⟩

theorem c2_write_layout_witness :
    (writerNew c2tmpl).sections.getLast? = some shstrtabWSection ∧
    shstrtabWSection.content ≠ [] ∧
    (∃ out, writeElf (writerNew c2tmpl) = .ok out ∧
      (∀ i sec, (writerNew c2tmpl).sections.get? i = some sec →
        sec.content = [] → (offsOf (writerNew c2tmpl)).get? i = some 0) ∧
      (∀ i sec off, (writerNew c2tmpl).sections.get? i = some sec →
        (offsOf (writerNew c2tmpl)).get? i = some off → sec.content ≠ [] →
        alignOf sec ∣ off ∧ coOf (writerNew c2tmpl) ≤ off) ∧
      (∀ i j seci secj offi offj, i < j →
        (writerNew c2tmpl).sections.get? i = some seci →
        (writerNew c2tmpl).sections.get? j = some secj →
        (offsOf (writerNew c2tmpl)).get? i = some offi →
        (offsOf (writerNew c2tmpl)).get? j = some offj →
        seci.content ≠ [] → secj.content ≠ [] →
        offi + seci.content.length ≤ offj) ∧
      (∀ offLast, (offsOf (writerNew c2tmpl)).getLast? = some offLast →
        out.length = offLast + shstrtabWSection.content.length)) :=
  ⟨by decide, by decide,
    c2_write_layout (writerNew c2tmpl) shstrtabWSection (by decide)
      (by decide) (by decide) (by decide) (by decide) (by decide)
      (by decide)⟩

theorem get?_zip_of {α β : Type} {a : List α} {b : List β} {k : Nat} {x : α}
    {y : β} (ha : a.get? k = some x) (hb : b.get? k = some y) :
    (a.zip b).get? k = some (x, y) := by
  induction a generalizing b k with
  | nil => simp at ha
  | cons a0 arest ih =>
    match b with
    | [] => simp at hb
    | b0 :: brest =>
      match k with
      | 0 =>
        simp at ha hb
        subst ha
        subst hb
        rfl
      | Nat.succ k1 =>
        simp only [List.get?_cons_succ] at ha hb
        show ((a0, b0) :: arest.zip brest).get? (k1 + 1) = _
        simp only [List.get?_cons_succ]
        exact ih ha hb

theorem writeHeader_WF (s : WState) (hwf : s.header.WF)
    (hcnt : s.sections.length ≤ 0xFFFF) (hpcnt : s.phs.length ≤ 0xFFFF) :
    (writeHeader s).WF := by
  obtain ⟨hi, h1, h2, h3, h4, h5, h6, h7, h8, h9, h10, h11, h12, h13⟩ := hwf
  refine ⟨hi, h1, h2, h3, h4, ?_, ?_, h7, h8, h9, ?_, h11, ?_, h13⟩
  · show (if s.phs.length ≠ 0 then 64 else s.header.phoff) < 2 ^ 64
    split
    · norm_num
    · exact h5
  · show (if s.sections.length ≠ 0 then shOffsetOf s.phs.length
      else s.header.shoff) < 2 ^ 64
    split
    · unfold shOffsetOf
      have : s.phs.length * 56 ≤ 65535 * 56 := by
        exact Nat.mul_le_mul_right 56 hpcnt
      omega
    · exact h6
  · show s.phs.length < 2 ^ 16
    omega
  · show s.sections.length < 2 ^ 16
    omega

/-- Reading the header back from any image that starts with an encoded
header, from an 8-aligned buffer. -/
theorem readHeader_on_image {H : ElfHeaderR} {rest : List Nat} {base : Nat}
    (hal : base % 8 = 0) (hwf : H.WF) :
    readHeader (ElfData.mk base (encEhdr H ++ rest)) = .ok H := by
  unfold readHeader loadSlice
  have hlen : (encEhdr H ++ rest).length = 64 + rest.length := by
    rw [List.length_append, encEhdr_length]
  rw [if_neg (by simp only [hlen]; omega)]
  rw [if_neg (by
    rintro ⟨_, hmod⟩
    exact hmod hal)]
  rw [if_neg (by norm_num), if_neg (by norm_num), if_pos (by norm_num)]
  show Except.ok (decEhdr (bslice (encEhdr H ++ rest) (64 * 0) 64)) = _
  rw [Nat.mul_zero]
  have hbs : bslice (encEhdr H ++ rest) 0 64 = encEhdr H :=
    bslice_here (encEhdr_length H)
  rw [show bslice (encEhdr H ++ rest) 0 64 = encEhdr H ++ [] by
    rw [hbs, List.append_nil]]
  rw [decEhdr_encEhdr hwf]

/-- Slicing the `i`-th record out of the serialized section-header tail. -/
theorem shdrsBytes_chunk (pairs : List (WSection × Nat)) (rest : List Nat) :
    ∀ i sec off, pairs.get? i = some (sec, off) →
      bslice (shdrsBytes pairs ++ rest) (64 * i) 64 = encShdr (shdrOf sec off) := by
  induction pairs with
  | nil =>
    intro i sec off h
    simp at h
  | cons p ps ih =>
    intro i sec off h
    obtain ⟨psec, poff⟩ := p
    match i with
    | 0 =>
      simp at h
      obtain ⟨rfl, rfl⟩ := h
      show bslice ((encShdr (shdrOf psec poff) ++ shdrsBytes ps) ++ rest) 0 64 = _
      rw [List.append_assoc]
      exact bslice_here (encShdr_length _)
    | Nat.succ j =>
      simp only [List.get?_cons_succ] at h
      show bslice ((encShdr (shdrOf psec poff) ++ shdrsBytes ps) ++ rest)
        (64 * (j + 1)) 64 = _
      rw [List.append_assoc]
      unfold bslice
      rw [show 64 * (j + 1) = (encShdr (shdrOf psec poff)).length + 64 * j by
        rw [encShdr_length]; ring]
      rw [List.drop_append]
      exact ih j sec off h

theorem magic_slice (H : ElfHeaderR) (rest : List Nat) :
    bslice (encEhdr H ++ rest) 0 4 =
      [H.ident.m0 % 256, H.ident.m1 % 256, H.ident.m2 % 256,
       H.ident.m3 % 256] := rfl

/-- Claim C3 (amended): for a writer state with the ELF magic in its header
template, valid field ranges, the seeded null section and name-table section
at ordinals 0 and 1, a non-empty last section, power-of-two alignments,
in-range program-header ordinals and no u64 overflow, re-parsing the produced
image from an 8-aligned buffer reproduces the supplied identification bytes,
file type, machine and entry; the section count; each section's header
record; the full name table (hence every supplied name); and every non
no-bits section's contents (a section supplied with the no-bits type 8 reads
back empty — see the counterexample). -/
theorem c3_roundtrip (base : Nat) (s : WState) (lastSec nts : WSection)
    (hal : base % 8 = 0)
    (hwf : s.header.WF)
    (hm0 : s.header.ident.m0 = 127) (hm1 : s.header.ident.m1 = 69)
    (hm2 : s.header.ident.m2 = 76) (hm3 : s.header.ident.m3 = 70)
    (hshent : s.header.shentsize = 64)
    (hstrndx : s.header.shstrndex = 1)
    (hsec0 : s.sections.get? 0 = some nullWSection)
    (hsec1 : s.sections.get? 1 = some nts)
    (hntst : nts.typ ≠ 8)
    (hlast : s.sections.getLast? = some lastSec)
    (hlastne : lastSec.content ≠ [])
    (hcnt : s.sections.length ≤ 0xFFFF) (hpcnt : s.phs.length ≤ 0xFFFF)
    (hali : ∀ sec ∈ s.sections, isPow2 (alignOf sec))
    (hphp : ∀ ph ∈ s.phs, ph.offSection < s.sections.length)
    (hov : coOf s + layoutBound s.sections ≤ U64)
    (hsecwf : ∀ sec ∈ s.sections, sec.name < 2 ^ 32 ∧ sec.typ < 2 ^ 32 ∧
      sec.flags < 2 ^ 64 ∧ sec.fixedEntsize.getD 0 < 2 ^ 64) :
    ∃ out shs,
      writeElf s = .ok out ∧
      elfNew (ElfData.mk base out) = .ok (ElfData.mk base out) ∧
      readHeader (ElfData.mk base out) = .ok (writeHeader s) ∧
      (writeHeader s).ident = s.header.ident ∧
      (writeHeader s).typ = s.header.typ ∧
      (writeHeader s).mach = s.header.mach ∧
      (writeHeader s).entry = s.header.entry ∧
      sectionHeaders (ElfData.mk base out) = .ok shs ∧
      shs.length = s.sections.length ∧
      (∀ i sec off, s.sections.get? i = some sec →
        (offsOf s).get? i = some off → shs.get? i = some (shdrOf sec off)) ∧
      shStrTable (ElfData.mk base out) = .ok nts.content ∧
      (∀ idx, shString (ElfData.mk base out) idx =
        readStrFrom nts.content idx) ∧
      (∀ i sec off, s.sections.get? i = some sec →
        (offsOf s).get? i = some off → sec.typ ≠ 8 →
        sectionContent (ElfData.mk base out) (shdrOf sec off) =
          .ok sec.content) := by
  have hlastlen : lastSec.content.length ≠ 0 := by
    intro h
    exact hlastne (List.length_eq_zero.1 h)
  obtain ⟨phb, cont, offLast, hphb, hphblen, hcont, hoffLast, hw, hclen,
    hwlen⟩ := writeElf_structure s lastSec hlast hlastlen hcnt hpcnt hali
      hphp hov
  have hsecne : s.sections ≠ [] := by
    intro h
    rw [h] at hlast
    simp at hlast
  have hslen : 0 < s.sections.length := List.length_pos.2 hsecne
  have hoffslen : (offsOf s).length = s.sections.length := by
    unfold offsOf
    exact layoutOffsets_length _ _
  -- the image and its prefix decompositions
  set IMG := ((encEhdr (writeHeader s) ++ phb) ++ shBlockOf s) ++ cont
    with hIMGdef
  have hIMGassoc : IMG = encEhdr (writeHeader s) ++
      (phb ++ (shBlockOf s ++ cont)) := by
    rw [hIMGdef, List.append_assoc, List.append_assoc]
  have hABlen : (encEhdr (writeHeader s) ++ phb).length =
      shOffsetOf s.phs.length := by
    rw [List.length_append, encEhdr_length, hphblen]
    unfold shOffsetOf
    ring
  have hPRElen : ((encEhdr (writeHeader s) ++ phb) ++ shBlockOf s).length =
      coOf s := by
    rw [List.length_append, hABlen, shBlockOf_length s hsecne]
    unfold coOf sectionContentsOffsetOf
    ring
  have hIMGlen : IMG.length = offLast + lastSec.content.length := hwlen
  have hIMGlen2 : IMG.length = coOf s + cont.length := by
    rw [hIMGdef, List.length_append, hPRElen]
  -- fresh copies of the layout facts
  obtain ⟨cont2, hcont2, hclen2, hplace2⟩ :=
    contentBytes_ok s.sections (coOf s) hali hov
  have hconteq : cont2 = cont := by
    have := hcont2
    unfold offsOf at hcont
    rw [hcont] at this
    exact (Except.ok.inj this).symm
  rw [hconteq] at hclen2 hplace2
  have hCOfin : coOf s ≤ layoutFinal (coOf s) s.sections ∧
      layoutFinal (coOf s) s.sections ≤ coOf s + layoutBound s.sections :=
    layoutFinal_mono s.sections (coOf s) hali hov
  have hfin_eq : layoutFinal (coOf s) s.sections = IMG.length := by
    omega
  -- reading the header back
  have hhdrwf : (writeHeader s).WF := writeHeader_WF s hwf hcnt hpcnt
  have hhdr : readHeader (ElfData.mk base IMG) = .ok (writeHeader s) := by
    rw [hIMGassoc]
    exact readHeader_on_image hal hhdrwf
  have hmagic : bslice IMG 0 4 = elfmag := by
    rw [hIMGassoc, magic_slice]
    show [(writeHeader s).ident.m0 % 256, (writeHeader s).ident.m1 % 256,
      (writeHeader s).ident.m2 % 256, (writeHeader s).ident.m3 % 256] = _
    have e0 : (writeHeader s).ident.m0 = 127 := hm0
    have e1 : (writeHeader s).ident.m1 = 69 := hm1
    have e2 : (writeHeader s).ident.m2 = 76 := hm2
    have e3 : (writeHeader s).ident.m3 = 70 := hm3
    rw [e0, e1, e2, e3]
    rfl
  have helfNew : elfNew (ElfData.mk base IMG) = .ok (ElfData.mk base IMG) := by
    unfold elfNew
    rw [if_neg (by
      show ¬ IMG.length < 64
      rw [hIMGassoc, List.length_append, encEhdr_length]
      omega)]
    rw [if_neg (by
      show ¬ bslice IMG 0 4 ≠ elfmag
      rw [hmagic]
      exact fun hc => hc rfl)]
  -- parsing the section header table
  have hdropSh : IMG.drop (shOffsetOf s.phs.length) = shBlockOf s ++ cont := by
    rw [hIMGdef, List.append_assoc]
    exact List.drop_left' hABlen
  have hshnum_ne : s.sections.length ≠ 0 := by omega
  have hshsval : sectionHeaders (ElfData.mk base IMG) =
      .ok ((List.range s.sections.length).map
        (fun i => decShdr (bslice (shBlockOf s ++ cont) (64 * i) 64))) := by
    unfold sectionHeaders
    rw [hhdr]
    show (if (writeHeader s).shnum = 0 then _ else _) = _
    have hnum : (writeHeader s).shnum = s.sections.length := rfl
    have hent : (writeHeader s).shentsize = 64 := hshent
    have hoff : (writeHeader s).shoff = shOffsetOf s.phs.length := by
      show (if s.sections.length ≠ 0 then shOffsetOf s.phs.length
        else s.header.shoff) = _
      rw [if_pos hshnum_ne]
    rw [hnum, hent, hoff]
    rw [if_neg hshnum_ne, if_neg (fun hc => hc rfl)]
    have hshoffle : shOffsetOf s.phs.length ≤ IMG.length := by
      have h64 : shOffsetOf s.phs.length + s.sections.length * 64 = coOf s := by
        unfold coOf sectionContentsOffsetOf
        ring
      omega
    rw [if_neg (by
      show ¬ shOffsetOf s.phs.length > (ElfData.mk base IMG).data.length
      show ¬ shOffsetOf s.phs.length > IMG.length
      omega)]
    show loadSlice 64 8 decShdr (base + shOffsetOf s.phs.length)
      (IMG.drop (shOffsetOf s.phs.length)) s.sections.length
      "section headers" = _
    rw [hdropSh]
    unfold loadSlice
    have hDlen : (shBlockOf s ++ cont).length =
        64 * s.sections.length + cont.length := by
      rw [List.length_append, shBlockOf_length s hsecne]
    rw [if_neg (by rw [hDlen]; omega)]
    rw [if_neg (by
      rintro ⟨_, hmod⟩
      apply hmod
      show (base + shOffsetOf s.phs.length) % 8 = 0
      unfold shOffsetOf
      omega)]
    rw [if_neg (by norm_num), if_neg (by norm_num),
      if_pos (Nat.mul_mod_right 64 _)]
  -- characterizing each parsed record
  have hchunk : ∀ i sec off, s.sections.get? i = some sec →
      (offsOf s).get? i = some off →
      bslice (shBlockOf s ++ cont) (64 * i) 64 = encShdr (shdrOf sec off) := by
    intro i sec off hget hoff
    match i with
    | 0 =>
      rw [hsec0] at hget
      cases hget
      obtain ⟨off0, ho0, hz0, _⟩ := layoutOffsets_props s.sections (coOf s)
        hali hov 0 nullWSection hsec0
      have : (offsOf s).get? 0 = some off0 := ho0
      rw [hoff] at this
      cases this
      have hoff0 : off = 0 := hz0 rfl
      subst hoff0
      show bslice ((encShdr nullShdr ++ shdrsBytes ((s.sections.drop 1).zip
        ((offsOf s).drop 1))) ++ cont) 0 64 = _
      rw [List.append_assoc]
      rw [bslice_here (encShdr_length _)]
      rfl
    | Nat.succ j =>
      have hgetd : (s.sections.drop 1).get? j = some sec := by
        rw [List.get?_drop, Nat.add_comm 1 j]
        exact hget
      have hoffd : ((offsOf s).drop 1).get? j = some off := by
        rw [List.get?_drop, Nat.add_comm 1 j]
        exact hoff
      have hpair : ((s.sections.drop 1).zip ((offsOf s).drop 1)).get? j =
          some (sec, off) := get?_zip_of hgetd hoffd
      show bslice ((encShdr nullShdr ++ shdrsBytes ((s.sections.drop 1).zip
        ((offsOf s).drop 1))) ++ cont) (64 * (j + 1)) 64 = _
      rw [List.append_assoc]
      unfold bslice
      rw [show 64 * (j + 1) = (encShdr nullShdr).length + 64 * j by
        rw [encShdr_length]; ring]
      rw [List.drop_append]
      exact shdrsBytes_chunk _ cont j sec off hpair
  have hshswf : ∀ i sec off, s.sections.get? i = some sec →
      (offsOf s).get? i = some off → (shdrOf sec off).WF := by
    intro i sec off hget hoff
    obtain ⟨hn, ht, hf, he⟩ := hsecwf sec (List.get?_mem hget)
    obtain ⟨off2, ho2, hz2, hp2⟩ := layoutOffsets_props s.sections (coOf s)
      hali hov i sec hget
    have : (offsOf s).get? i = some off2 := ho2
    rw [hoff] at this
    cases this
    have hofflt : off < 2 ^ 64 := by
      by_cases hz : sec.content.length = 0
      · rw [hz2 hz]
        norm_num
      · obtain ⟨_, _, hend⟩ := hp2 hz
        have := hCOfin.2
        show off < U64
        omega
    have hszlt : sec.content.length < 2 ^ 64 := by
      by_cases hz : sec.content.length = 0
      · rw [hz]
        norm_num
      · obtain ⟨_, hge, hend⟩ := hp2 hz
        have := hCOfin.2
        have hCOpos : 0 < coOf s := by
          unfold coOf sectionContentsOffsetOf shOffsetOf
          omega
        show sec.content.length < U64
        omega
    exact ⟨hn, ht, hf, by show (0:Nat) < 2 ^ 64; norm_num, hofflt, hszlt,
      by show (0:Nat) < 2 ^ 32; norm_num, by show (0:Nat) < 2 ^ 32; norm_num,
      by show (0:Nat) < 2 ^ 64; norm_num, he⟩
  have hshsget : ∀ i sec off, s.sections.get? i = some sec →
      (offsOf s).get? i = some off →
      ((List.range s.sections.length).map
        (fun k => decShdr (bslice (shBlockOf s ++ cont) (64 * k) 64))).get? i =
        some (shdrOf sec off) := by
    intro i sec off hget hoff
    have hilen : i < s.sections.length := by
      by_contra hc
      rw [List.get?_eq_none.2 (by omega)] at hget
      cases hget
    rw [List.get?_map, List.get?_range hilen]
    show some (decShdr (bslice (shBlockOf s ++ cont) (64 * i) 64)) = _
    rw [hchunk i sec off hget hoff]
    rw [show encShdr (shdrOf sec off) =
      encShdr (shdrOf sec off) ++ [] from (List.append_nil _).symm]
    rw [decShdr_encShdr (hshswf i sec off hget hoff)]
  -- content placement inside the full image
  have hplaceIMG : ∀ i sec off, s.sections.get? i = some sec →
      (offsOf s).get? i = some off → sec.content.length ≠ 0 →
      bslice IMG off sec.content.length = sec.content := by
    intro i sec off hget hoff hne
    obtain ⟨off2, ho2, _, hp2⟩ := layoutOffsets_props s.sections (coOf s)
      hali hov i sec hget
    have : (offsOf s).get? i = some off2 := ho2
    rw [hoff] at this
    cases this
    obtain ⟨_, hge, _⟩ := hp2 hne
    have hplaced := hplace2 i sec off hget hoff hne
    rw [hIMGdef]
    unfold bslice
    rw [List.drop_append_eq_append_drop,
      List.drop_eq_nil_of_le (by rw [hPRElen]; omega), List.nil_append,
      hPRElen]
    unfold bslice at hplaced
    exact hplaced
  -- bounds for each non-empty section
  have hrange : ∀ i sec off, s.sections.get? i = some sec →
      (offsOf s).get? i = some off → sec.content.length ≠ 0 →
      coOf s ≤ off ∧ off + sec.content.length ≤ IMG.length := by
    intro i sec off hget hoff hne
    obtain ⟨off2, ho2, _, hp2⟩ := layoutOffsets_props s.sections (coOf s)
      hali hov i sec hget
    have : (offsOf s).get? i = some off2 := ho2
    rw [hoff] at this
    cases this
    obtain ⟨_, hge, hend⟩ := hp2 hne
    omega
  -- section content reproduction
  have hcontentRT : ∀ i sec off, s.sections.get? i = some sec →
      (offsOf s).get? i = some off → sec.typ ≠ 8 →
      sectionContent (ElfData.mk base IMG) (shdrOf sec off) =
        .ok sec.content := by
    intro i sec off hget hoff htyp
    unfold sectionContent
    rw [if_neg (by
      show ¬ (shdrOf sec off).typ = 8
      exact htyp)]
    by_cases hz : sec.content.length = 0
    · obtain ⟨off2, ho2, hz2, _⟩ := layoutOffsets_props s.sections (coOf s)
        hali hov i sec hget
      have : (offsOf s).get? i = some off2 := ho2
      rw [hoff] at this
      cases this
      have hoff0 : off = 0 := hz2 hz
      subst hoff0
      rw [if_neg (by
        show ¬ (shdrOf sec 0).offset > IMG.length
        show ¬ (0 : Nat) > IMG.length
        omega)]
      rw [if_neg (by
        show ¬ (shdrOf sec 0).size > IMG.length - (shdrOf sec 0).offset
        show ¬ sec.content.length > IMG.length - 0
        rw [hz]
        omega)]
      show Except.ok (bslice IMG 0 sec.content.length) = _
      rw [hz]
      unfold bslice
      rw [List.take_zero]
      rw [List.length_eq_zero.1 hz]
    · obtain ⟨hcole, hendle⟩ := hrange i sec off hget hoff hz
      rw [if_neg (by
        show ¬ (shdrOf sec off).offset > IMG.length
        show ¬ off > IMG.length
        omega)]
      rw [if_neg (by
        show ¬ (shdrOf sec off).size > IMG.length - (shdrOf sec off).offset
        show ¬ sec.content.length > IMG.length - off
        omega)]
      show Except.ok (bslice IMG off sec.content.length) = _
      rw [hplaceIMG i sec off hget hoff hz]
  -- section 1: the name table
  obtain ⟨off1, hoff1⟩ : ∃ off1, (offsOf s).get? 1 = some off1 := by
    have h1lt : 1 < s.sections.length := by
      by_contra hc
      rw [List.get?_eq_none.2 (by omega)] at hsec1
      cases hsec1
    match hh : (offsOf s).get? 1 with
    | some z => exact ⟨z, rfl⟩
    | none =>
      rw [List.get?_eq_none] at hh
      omega
  have hsh1 : sectionHeaderAt (ElfData.mk base IMG) 1 =
      .ok (shdrOf nts off1) := by
    unfold sectionHeaderAt
    rw [hshsval]
    show (match ((List.range s.sections.length).map
      (fun k => decShdr (bslice (shBlockOf s ++ cont) (64 * k) 64))).get? 1 with
      | some sh => (pure sh : Except ElfReadErr ShdrR)
      | none => throw (ElfReadErr.indexOutOfBounds "section number" 1)) = _
    rw [hshsget 1 nts off1 hsec1 hoff1]
    rfl
  have hstrtab : shStrTable (ElfData.mk base IMG) = .ok nts.content := by
    unfold shStrTable
    rw [hhdr]
    show (if (writeHeader s).shstrndex = 0 then _ else _) = _
    have hnd : (writeHeader s).shstrndex = 1 := hstrndx
    rw [hnd]
    rw [if_neg (by norm_num), if_neg (by norm_num)]
    show (sectionHeaderAt (ElfData.mk base IMG) 1 >>= fun sh =>
      sectionContent (ElfData.mk base IMG) sh) = _
    rw [hsh1]
    show sectionContent (ElfData.mk base IMG) (shdrOf nts off1) = _
    exact hcontentRT 1 nts off1 hsec1 hoff1 hntst
  have hshString : ∀ idx, shString (ElfData.mk base IMG) idx =
      readStrFrom nts.content idx := by
    intro idx
    unfold shString
    rw [hstrtab]
    rfl
  refine ⟨IMG, _, hw, helfNew, hhdr, rfl, rfl, rfl, rfl, hshsval, ?_,
    hshsget, hstrtab, hshString, hcontentRT⟩
  rw [List.length_map, List.length_range]

/-- The bytes of `".text"`. -/
def textName : List Nat := [46, 116, 101, 120, 116]

def c3wPair : WState × Nat := addShString (writerNew c2tmpl) textName

def c3textSec : WSection :=
  { name := c3wPair.2, typ := 1, flags := 6, fixedEntsize := none,
    addrAlign := some 16, content := [144, 144, 195] }

def c3wState : WState :=
  match addSection c3wPair.1 c3textSec with
  | .ok (st, _) => st
  | .error _ => c3wPair.1

/-- The name-table section of `c3wState` after the `".text"` append. -/
def c3nts : WSection :=
  { name := 1, typ := 3, flags := 0, fixedEntsize := none, addrAlign := none,
    content := (0 :: (shstrtabName ++ [0])) ++ textName ++ [0] }

theorem c3_roundtrip_witness :
    (0 : Nat) % 8 = 0 ∧
    c3wState.header.WF ∧
    c3wState.sections.get? 0 = some nullWSection ∧
    c3wState.sections.get? 1 = some c3nts ∧
    c3wState.sections.getLast? = some c3textSec ∧
    (∃ out shs,
      writeElf c3wState = .ok out ∧
      elfNew (ElfData.mk 0 out) = .ok (ElfData.mk 0 out) ∧
      readHeader (ElfData.mk 0 out) = .ok (writeHeader c3wState) ∧
      (writeHeader c3wState).ident = c3wState.header.ident ∧
      (writeHeader c3wState).typ = c3wState.header.typ ∧
      (writeHeader c3wState).mach = c3wState.header.mach ∧
      (writeHeader c3wState).entry = c3wState.header.entry ∧
      sectionHeaders (ElfData.mk 0 out) = .ok shs ∧
      shs.length = c3wState.sections.length ∧
      (∀ i sec off, c3wState.sections.get? i = some sec →
        (offsOf c3wState).get? i = some off →
        shs.get? i = some (shdrOf sec off)) ∧
      shStrTable (ElfData.mk 0 out) = .ok c3nts.content ∧
      (∀ idx, shString (ElfData.mk 0 out) idx =
        readStrFrom c3nts.content idx) ∧
      (∀ i sec off, c3wState.sections.get? i = some sec →
        (offsOf c3wState).get? i = some off → sec.typ ≠ 8 →
        sectionContent (ElfData.mk 0 out) (shdrOf sec off) =
          .ok sec.content)) :=
  ⟨by decide, by decide, by decide, by decide, by decide,
    c3_roundtrip 0 c3wState c3textSec c3nts (by decide) (by decide)
      (by decide) (by decide) (by decide) (by decide) (by decide) (by decide)
      (by decide) (by decide) (by decide) (by decide) (by decide) (by decide)
      (by decide) (by decide) (by decide) (by decide) (by decide)⟩

/-- An all-zero identification block (not the ELF magic). -/
def c3zeroIdent : ElfIdentR :=
  { m0 := 0, m1 := 0, m2 := 0, m3 := 0, cls := 0, dat := 0, iver := 0,
    osabi := 0, abiver := 0, p0 := 0, p1 := 0, p2 := 0, p3 := 0, p4 := 0,
    p5 := 0, p6 := 0 }

def c3badState : WState :=
  writerNew { ident := c3zeroIdent, typ := 2, mach := 62 }

def c3badOut : List Nat :=
  match writeElf c3badState with
  | .ok o => o
  | .error _ => []

def c3nbSec : WSection :=
  { name := 0, typ := 8, flags := 0, fixedEntsize := none, addrAlign := none,
    content := [42] }

def c3nbState : WState :=
  match addSection (writerNew c2tmpl) c3nbSec with
  | .ok (st, _) => st
  | .error _ => writerNew c2tmpl

def c3nbOut : List Nat :=
  match writeElf c3nbState with
  | .ok o => o
  | .error _ => []

/-- Re-reading the no-bits section (ordinal 2) of the `c3nbState` image. -/
def c3nbRead : Except ElfReadErr (List Nat) := do
  let sh ← sectionHeaderAt (ElfData.mk 0 c3nbOut) 2
  sectionContent (ElfData.mk 0 c3nbOut) sh

/-- Claim C3, counterexample to the claim as stated ("for every image
produced by write()"): (i) a writer state whose header template magic is not
the ELF signature produces an image the reader refuses outright, so no
header field is reproduced; (ii) a section supplied with the no-bits type 8
and content `[42]` produces an image whose re-parse returns empty content
for it. -/
theorem c3_roundtrip_counterexample :
    writeElf c3badState = .ok c3badOut ∧
    elfNew (ElfData.mk 0 c3badOut) = .error (.wrongMagic [0, 0, 0, 0]) ∧
    writeElf c3nbState = .ok c3nbOut ∧
    c3nbState.sections.get? 2 = some c3nbSec ∧
    c3nbSec.content = [42] ∧
    c3nbRead = .ok [] := by
  refine ⟨by decide, by decide, by decide, by decide, by decide, by decide⟩

/-- Errors (and modelled panics) of the elven-wald linker paths.  `readErr`
is `?`-propagation of an `ElfReadError`; `duplicateDefinition` is the
`bail!("duplicate definition for symbol {name}")` anyhow error, which carries
only the symbol name; `alignAssert` models the `assert!` panic inside
`utils::align_up`; `panicked` models slice-indexing panics. -/
inductive LinkErr where
  | readErr (e : ElfReadErr)
  | duplicateDefinition (name : List Nat)
  | alignAssert
  | writeErr (e : WriteErr)
  | panicked (msg : String)
  deriving DecidableEq, Repr

/-- `elven_wald::BASE_EXEC_ADDR`. -/
def BASE_EXEC_ADDR : Nat := 0x400000

/-- `elven_wald::DEFAULT_PAGE_ALIGN`. -/
def DEFAULT_PAGE_ALIGN : Nat := 0x1000

def dataName : List Nat := [46, 100, 97, 116, 97]

def bssName : List Nat := [46, 98, 115, 115]

/-- The canonical section names the linker merges, in scan order. -/
def canonicalNames : List (List Nat) := [textName, dataName, bssName]

/-- `elven_wald::storage::Allocation`. -/
structure AllocR where
  file : Nat
  sectionName : List Nat
  size : Nat
  align : Nat
  deriving DecidableEq, Repr

/-- `elven_wald::storage::SegmentPart`. -/
structure PartR where
  pad : Nat
  base : Nat
  align : Nat
  file : Nat
  size : Nat
  deriving DecidableEq, Repr

/-- `elven_wald::storage::AllocatedSection`. -/
structure AllocatedSectionR where
  name : List Nat
  parts : List PartR
  deriving DecidableEq, Repr

/-- `IndexMap::entry(name).or_default().push(alloc)`: insertion-ordered map
from canonical name to its allocation list. -/
def imapPush (m : List (List Nat × List AllocR)) (key : List Nat)
    (a : AllocR) : List (List Nat × List AllocR) :=
  match m with
  | [] => [(key, [a])]
  | (k, v) :: rest =>
    if k = key then (k, v ++ [a]) :: rest else (k, v) :: imapPush rest key a

/-- The inner loop of allocation pass one: try each canonical name in one
file; `NotFoundByName` is skipped, any other read error aborts. -/
def allocNames (m : List (List Nat × List AllocR)) (idx : Nat) (f : ElfData) :
    List (List Nat) → Except LinkErr (List (List Nat × List AllocR))
  | [] => .ok m
  | name :: rest =>
    match sectionHeaderByName f name with
    | .ok sh =>
      allocNames (imapPush m name
        { file := idx, sectionName := name, size := sh.size,
          align := sh.addralign }) idx f rest
    | .error (.notFoundByName _ _) => allocNames m idx f rest
    | .error e => .error (.readErr e)

/-- Allocation pass one over all files (`allocs` in `allocate_storage`). -/
def allocFiles (m : List (List Nat × List AllocR)) (idx : Nat) :
    List ElfData → Except LinkErr (List (List Nat × List AllocR))
  | [] => .ok m
  | f :: fs =>
    match allocNames m idx f canonicalNames with
    | .error e => .error e
    | .ok m2 => allocFiles m2 (idx + 1) fs

def allocPassOne (files : List ElfData) :
    Except LinkErr (List (List Nat × List AllocR)) :=
  allocFiles [] 0 files

/-- Placing the parts of one canonical section: align the cursor up to each
part's own alignment (the asserting `align_up`), record the wrapping-u64
padding, and advance past the size. -/
def allocParts (cur : Nat) :
    List AllocR → Except LinkErr (List PartR × Nat)
  | [] => .ok ([], cur)
  | a :: rest =>
    match alignUpU cur a.align with
    | none => .error .alignAssert
    | some addr =>
      match allocParts ((addr + a.size) % U64) rest with
      | .error e => .error e
      | .ok (ps, fin) =>
        .ok ({ pad := (addr + U64 - cur) % U64, base := addr,
               align := a.align, file := a.file, size := a.size } :: ps, fin)

/-- Pass two: each canonical section starts at the cursor aligned up to the
default page size. -/
def allocSections (cur : Nat) :
    List (List Nat × List AllocR) → Except LinkErr (List AllocatedSectionR)
  | [] => .ok []
  | (name, allocs) :: rest =>
    match alignUpU cur DEFAULT_PAGE_ALIGN with
    | none => .error .alignAssert
    | some cur2 =>
      match allocParts cur2 allocs with
      | .error e => .error e
      | .ok (ps, fin) =>
        match allocSections fin rest with
        | .error e => .error e
        | .ok tl => .ok ({ name := name, parts := ps } :: tl)

/-- `elven_wald::storage::allocate_storage`. -/
def allocateStorage (baseAddr : Nat) (files : List ElfData) :
    Except LinkErr (List AllocatedSectionR) :=
  match allocPassOne files with
  | .error e => .error e
  | .ok m => allocSections baseAddr m

/-- `elven_wald::SymbolDefinition`. -/
structure SymDefR where
  file : Nat
  sectionIdx : Nat
  value : Nat
  size : Nat
  deriving DecidableEq, Repr

/-- `elven_wald::Symbol`. -/
structure LSymbol where
  name : List Nat
  definition : Option SymDefR
  deriving DecidableEq, Repr

/-- The global symbol table (`HashMap<&BStr, Symbol>`), modelled as an
association list keyed by name. -/
abbrev SymMap : Type := List (List Nat × LSymbol)

def mapFind (m : SymMap) (k : List Nat) : Option LSymbol :=
  match m with
  | [] => none
  | (k2, v) :: rest => if k2 = k then some v else mapFind rest k

def mapSet (m : SymMap) (k : List Nat) (v : LSymbol) : SymMap :=
  match m with
  | [] => []
  | (k2, v2) :: rest =>
    if k2 = k then (k2, v) :: rest else (k2, v2) :: mapSet rest k v

/-- One iteration of `sym_first_pass`'s symbol loop: skip section-type
symbols, resolve the name, build the candidate definition (none for
`SHN_UNDEF`), and apply the occupied/vacant entry rules. -/
def processSym (m : SymMap) (fileIdx : Nat) (f : ElfData) (sym : SymR) :
    Except LinkErr SymMap :=
  if sym.symType = 3 then .ok m
  else
    match stringAt f sym.name with
    | .error e => .error (.readErr e)
    | .ok name =>
      let definition : Option SymDefR :=
        if sym.shndx = 0 then none
        else some { file := fileIdx, sectionIdx := sym.shndx,
                    value := sym.value, size := sym.size }
      match mapFind m name with
      | some entry =>
        match entry.definition, definition with
        | some _, some _ => .error (.duplicateDefinition name)
        | none, some d =>
          .ok (mapSet m name { name := name, definition := some d })
        | some _, none => .ok m
        | none, none => .ok m
      | none => .ok (m ++ [(name, { name := name, definition := definition })])

def processSyms (m : SymMap) (fileIdx : Nat) (f : ElfData) :
    List SymR → Except LinkErr SymMap
  | [] => .ok m
  | sym :: rest => do
    processSyms (← processSym m fileIdx f sym) fileIdx f rest

def symFirstPassGo (m : SymMap) (idx : Nat) :
    List ElfData → Except LinkErr SymMap
  | [] => .ok m
  | f :: fs =>
    match symbols f with
    | .error e => .error (.readErr e)
    | .ok syms => do
      symFirstPassGo (← processSyms m idx f syms) (idx + 1) fs

/-- `LinkCtxt::sym_first_pass` (stage 3). -/
def symFirstPass (files : List ElfData) : Except LinkErr SymMap :=
  symFirstPassGo [] 0 files

/-- Modelled from the spec: `ShFlags::SHF_ALLOC`, "all carry the allocated
flag" — the standard ELF allocated-section flag bit (the `ShFlags` bitflags
definition itself is not under src/). -/
def SHF_ALLOC : Nat := 2

/-- Modelled from the spec: `ShFlags::SHF_EXECINSTR`, "`.text` carries the
executable flag" — the standard ELF executable-instructions flag bit. -/
def SHF_EXECINSTR : Nat := 4

/-- The content-assembly loop of `run` (lines 140-146): per part, pad bytes
then the owning file's section content (looked up again by name). -/
def partsContent (files : List ElfData) (name : List Nat) :
    List PartR → Except LinkErr (List Nat)
  | [] => .ok []
  | p :: rest =>
    match files.get? p.file with
    | none => .error (.panicked "file ordinal out of range")
    | some f =>
      match sectionHeaderByName f name with
      | .error e => .error (.readErr e)
      | .ok sh =>
        match sectionContent f sh with
        | .error e => .error (.readErr e)
        | .ok data => do
          let tl ← partsContent files name rest
          return List.replicate p.pad 0 ++ data ++ tl

/-- One iteration of `run`'s merged-section emission loop (lines 132-163):
NOTE the executable flag is keyed on the name being `b"text"` — WITHOUT the
leading dot — while every canonical section name carries the dot. -/
def emitSection (files : List ElfData) (w : WState)
    (asec : AllocatedSectionR) : Except LinkErr WState :=
  let exec := if asec.name = [116, 101, 120, 116] then SHF_EXECINSTR else 0
  match partsContent files asec.name asec.parts with
  | .error e => .error e
  | .ok content =>
    let pr := addShString w asec.name
    match addSection pr.1
      { name := pr.2, typ := 1, flags := SHF_ALLOC ||| exec,
        fixedEntsize := none,
        addrAlign := (match asec.parts.head? with
          | some p => if p.align = 0 then none else some p.align
          | none => some DEFAULT_PAGE_ALIGN),
        content := content } with
    | .error e => .error (.writeErr e)
    | .ok (w2, _) => .ok w2

def emitSections (files : List ElfData) (w : WState) :
    List AllocatedSectionR → Except LinkErr WState
  | [] => .ok w
  | asec :: rest => do
    emitSections files (← emitSection files w asec) rest

/-- The entry-point fragment of `run` (lines 169-174) together with
`write_output`'s entry computation (line 277): `.text` and `_start` are
looked up only in the FIRST input file's own tables, and the entry address is
`BASE_EXEC_ADDR + DEFAULT_PAGE_ALIGN + sym.value` (wrapping u64). -/
def startName : List Nat := [95, 115, 116, 97, 114, 116]

def resolveEntryStub (files : List ElfData) : Except LinkErr Nat :=
  match files.get? 0 with
  | none => .error (.panicked "file ordinal out of range")
  | some f0 =>
    match sectionHeaderByName f0 textName with
    | .error e => .error (.readErr e)
    | .ok sh =>
      match sectionContent f0 sh with
      | .error e => .error (.readErr e)
      | .ok _ =>
        match symbolByName f0 startName with
        | .error e => .error (.readErr e)
        | .ok sym =>
          .ok ((BASE_EXEC_ADDR + DEFAULT_PAGE_ALIGN + sym.value) % U64)

def dotSymtab : List Nat := [46, 115, 121, 109, 116, 97, 98]

def dotShstrtab : List Nat := [46, 115, 104, 115, 116, 114, 116, 97, 98]

/-- The section-name string table shared by the handcrafted test objects:
nul, ".text", ".symtab", ".strtab", ".shstrtab" (name offsets 1/7/15/23). -/
def testShstr : List Nat :=
  [0] ++ textName ++ [0] ++ dotSymtab ++ [0] ++ bstrtab ++ [0] ++
    dotShstrtab ++ [0]

/-- A minimal relocatable object: null section, `.text` (given bytes and
addralign), `.symtab` (given records), `.strtab` (given bytes), `.shstrtab`,
with the section-header table at offset 64 and contents packed from 384. -/
def mkTestObj (textBytes : List Nat) (textAlign : Nat) (syms : List SymR)
    (strtab : List Nat) : ElfData :=
  let hdr : ElfHeaderR :=
    { ident := magicIdent, typ := 1, mach := 62, ver := 1, entry := 0,
      phoff := 0, shoff := 64, flags := 0, ehsize := 64, phentsize := 0,
      phnum := 0, shentsize := 64, shnum := 5, shstrndex := 4 }
  let shText : ShdrR :=
    { name := 1, typ := 1, flags := 6, addr := 0, offset := 384,
      size := textBytes.length, link := 0, info := 0, addralign := textAlign,
      entsize := 0 }
  let shSymtab : ShdrR :=
    { name := 7, typ := 2, flags := 0, addr := 0,
      offset := 384 + textBytes.length, size := 24 * syms.length, link := 3,
      info := 0, addralign := 8, entsize := 24 }
  let shStrtab : ShdrR :=
    { name := 15, typ := 3, flags := 0, addr := 0,
      offset := 384 + textBytes.length + 24 * syms.length,
      size := strtab.length, link := 0, info := 0, addralign := 1,
      entsize := 0 }
  let shShstrtab : ShdrR :=
    { name := 23, typ := 3, flags := 0, addr := 0,
      offset := 384 + textBytes.length + 24 * syms.length + strtab.length,
      size := 33, link := 0, info := 0, addralign := 1, entsize := 0 }
  { base := 0,
    data := encEhdr hdr ++ encShdr nullShdr ++ encShdr shText ++
      encShdr shSymtab ++ encShdr shStrtab ++ encShdr shShstrtab ++
      textBytes ++ (syms.foldr (fun s acc => encSym s ++ acc) []) ++
      strtab ++ testShstr }

def exitName : List Nat := [101, 120, 105, 116]

def fooName : List Nat := [102, 111, 111]

/-- An object defining `_start` at value 0 in its `.text`. -/
def objStart : ElfData :=
  mkTestObj (List.replicate 8 144) 16
    [{ name := 1, info := 18, other := 0, shndx := 1, value := 0, size := 0 }]
    ([0] ++ startName ++ [0])

/-- An object defining only `exit` (no `_start` anywhere in it). -/
def objExit : ElfData :=
  mkTestObj (List.replicate 8 144) 16
    [{ name := 1, info := 18, other := 0, shndx := 1, value := 0, size := 0 }]
    ([0] ++ exitName ++ [0])

/-- An object defining `foo`. -/
def objFoo : ElfData :=
  mkTestObj (List.replicate 8 144) 16
    [{ name := 1, info := 18, other := 0, shndx := 1, value := 0, size := 0 }]
    ([0] ++ fooName ++ [0])

/-- An object whose `.text` declares the non-power-of-two addralign 6. -/
def objAlign6 : ElfData :=
  mkTestObj (List.replicate 8 144) 6 [] [0]

/-- The merged-section emission pipeline of `run` on already-parsed inputs:
allocate storage, run the symbol first pass, then emit every merged section
into a fresh writer made from `create_elf`'s template. -/
def linkedWriter (files : List ElfData) : Except LinkErr WState := do
  let storage ← allocateStorage BASE_EXEC_ADDR files
  let _ ← symFirstPass files
  emitSections files (writerNew c2tmpl) storage

/-- The global symbol table produced for `[objExit, objStart]`: `exit`
defined by file 0 and `_start` defined by file 1. -/
def c1StartDef : SymDefR :=
  { file := 1, sectionIdx := 1, value := 0, size := 0 }

def c1GlobalMap : SymMap :=
  [(exitName,
    { name := exitName,
      definition := some { file := 0, sectionIdx := 1, value := 0, size := 0 } }),
   (startName, { name := startName, definition := some c1StartDef })]

/-- The storage allocation for the single input `[objStart]`: one merged
`.text` whose base is the executable base address. -/
def c1Storage : List AllocatedSectionR :=
  [{ name := textName,
     parts := [{ pad := 0, base := BASE_EXEC_ADDR, align := 16, file := 0, size := 8 }] }]

/-- Claim C1: REFUTED, code bug.  The entry point is not resolved from the
global symbol table: for `[objExit, objStart]` the resolution pass records a
definition of `_start` (contributed by the second file), yet the emission
stage fails with the generic reader error `NotFoundByName("symbol", "_start")`
— it only consults the FIRST file's own symbol table, and no distinct
"entry symbol undefined" condition exists.  And for `[objStart]` (where
`_start` has value 0 and the merged `.text` is allocated at base
`BASE_EXEC_ADDR`), the produced entry address is
`BASE_EXEC_ADDR + DEFAULT_PAGE_ALIGN`, not the computed `.text` base plus the
symbol's value. -/
theorem c1_entry_resolution_stub :
    symFirstPass [objExit, objStart] = .ok c1GlobalMap ∧
    (mapFind c1GlobalMap startName).bind (fun e => e.definition) =
      some c1StartDef ∧
    resolveEntryStub [objExit, objStart] =
      .error (.readErr (.notFoundByName "symbol" startName)) ∧
    allocateStorage BASE_EXEC_ADDR [objStart] = .ok c1Storage ∧
    resolveEntryStub [objStart] = .ok (BASE_EXEC_ADDR + DEFAULT_PAGE_ALIGN) ∧
    BASE_EXEC_ADDR + DEFAULT_PAGE_ALIGN ≠ BASE_EXEC_ADDR + 0 := by
  decide

/-- Claim C8: REFUTED, code bug.  Every merged section does carry
`SHF_ALLOC`, but the executable flag is keyed on the literal name `b"text"`
while every canonical (and hence every merged) section name carries a leading
dot: linking `[objStart]` merges exactly one section, named `.text`, and the
section handed to the writer (ordinal 2, after null and `.shstrtab`) has
flags `SHF_ALLOC` with the `SHF_EXECINSTR` bit clear. -/
theorem c8_merged_text_not_executable :
    (match allocateStorage BASE_EXEC_ADDR [objStart] with
     | .ok st => st.map (fun s => s.name)
     | .error _ => []) = [textName] ∧
    (match linkedWriter [objStart] with
     | .ok w => (w.sections.get? 2).map (fun sec => sec.flags)
     | .error _ => none) = some SHF_ALLOC ∧
    SHF_ALLOC &&& SHF_EXECINSTR = 0 ∧
    textName ≠ [116, 101, 120, 116] := by
  decide

/-- `sym` is a non-section-type symbol whose name resolves to `n` and that
carries a definition (its shndx is not `SHN_UNDEF`). -/
def definesSym (f : ElfData) (n : List Nat) (sym : SymR) : Prop :=
  sym.symType ≠ 3 ∧ sym.shndx ≠ 0 ∧ stringAt f sym.name = .ok n

/-- Every non-skipped symbol's name resolves in its file's `.strtab`. -/
def namesOk (f : ElfData) (syms : List SymR) : Prop :=
  ∀ sym ∈ syms, sym.symType ≠ 3 → isOkE (stringAt f sym.name) = true

/-- The global table records a definition for name `n`. -/
def HasDef (m : SymMap) (n : List Nat) : Prop :=
  ∃ e d, mapFind m n = some e ∧ e.definition = some d

instance (f : ElfData) (syms : List SymR) : Decidable (namesOk f syms) := by
  unfold namesOk; infer_instance

instance (f : ElfData) (n : List Nat) (s : SymR) :
    Decidable (definesSym f n s) := by
  unfold definesSym; infer_instance

theorem mapFind_append_of_some {m : SymMap} {n : List Nat} {e : LSymbol}
    (l : SymMap) (h : mapFind m n = some e) : mapFind (m ++ l) n = some e := by
  induction m with
  | nil => simp [mapFind] at h
  | cons kv rest ih =>
    rcases kv with ⟨k, v⟩
    rw [List.cons_append]
    unfold mapFind at h ⊢
    by_cases hk : k = n
    · rw [if_pos hk] at h ⊢; exact h
    · rw [if_neg hk] at h ⊢; exact ih h

theorem mapFind_append_right {m : SymMap} {n : List Nat} (v : LSymbol)
    (h : mapFind m n = none) : mapFind (m ++ [(n, v)]) n = some v := by
  induction m with
  | nil => rw [List.nil_append]; unfold mapFind; rw [if_pos rfl]
  | cons kv rest ih =>
    rcases kv with ⟨k, v2⟩
    rw [List.cons_append]
    unfold mapFind at h ⊢
    by_cases hk : k = n
    · rw [if_pos hk] at h; exact absurd h (by simp)
    · rw [if_neg hk] at h ⊢; exact ih h

theorem mapFind_mapSet_same {m : SymMap} {n : List Nat} {e : LSymbol}
    (v : LSymbol) (h : mapFind m n = some e) :
    mapFind (mapSet m n v) n = some v := by
  induction m with
  | nil => simp [mapFind] at h
  | cons kv rest ih =>
    rcases kv with ⟨k, v2⟩
    unfold mapFind at h
    unfold mapSet
    by_cases hk : k = n
    · rw [if_pos hk]; unfold mapFind; rw [if_pos hk]
    · rw [if_neg hk]; unfold mapFind; rw [if_neg hk]
      rw [if_neg hk] at h; exact ih h

theorem mapFind_mapSet_other {m : SymMap} {k n : List Nat} (v : LSymbol)
    (h : n ≠ k) : mapFind (mapSet m k v) n = mapFind m n := by
  induction m with
  | nil => rfl
  | cons kv rest ih =>
    rcases kv with ⟨k2, v2⟩
    unfold mapSet
    by_cases hk : k2 = k
    · rw [if_pos hk]; unfold mapFind
      rw [if_neg (by rw [hk]; exact fun he => h he.symm),
        if_neg (by rw [hk]; exact fun he => h he.symm)]
    · rw [if_neg hk]; unfold mapFind
      by_cases h2 : k2 = n
      · rw [if_pos h2, if_pos h2]
      · rw [if_neg h2, if_neg h2]; exact ih

def symDefOf (i : Nat) (sym : SymR) : Option SymDefR :=
  if sym.shndx = 0 then none
  else some { file := i, sectionIdx := sym.shndx, value := sym.value,
              size := sym.size }

/-- The body of `processSym` once the type filter has passed and the name has
resolved to `nm` (the entry-map step factored out for reasoning). -/
def procSymCore (m : SymMap) (i : Nat) (sym : SymR) (nm : List Nat) :
    Except LinkErr SymMap :=
  match mapFind m nm with
  | some entry =>
    match entry.definition, symDefOf i sym with
    | some _, some _ => .error (.duplicateDefinition nm)
    | none, some d => .ok (mapSet m nm { name := nm, definition := some d })
    | some _, none => .ok m
    | none, none => .ok m
  | none => .ok (m ++ [(nm, { name := nm, definition := symDefOf i sym })])

theorem processSym_skip (m : SymMap) (i : Nat) (f : ElfData) (sym : SymR)
    (h : sym.symType = 3) : processSym m i f sym = .ok m := by
  unfold processSym; rw [if_pos h]

theorem processSym_eq_core (m : SymMap) (i : Nat) (f : ElfData) (sym : SymR)
    {nm : List Nat} (h3 : sym.symType ≠ 3)
    (hs : stringAt f sym.name = .ok nm) :
    processSym m i f sym = procSymCore m i sym nm := by
  unfold processSym; rw [if_neg h3, hs]; rfl

theorem processSym_dup (m : SymMap) (i : Nat) (f : ElfData) (sym : SymR)
    {nm : List Nat} (h3 : sym.symType ≠ 3) (hx : sym.shndx ≠ 0)
    (hs : stringAt f sym.name = .ok nm) (hd : HasDef m nm) :
    processSym m i f sym = .error (.duplicateDefinition nm) := by
  rcases hd with ⟨e, d, hfind, hdef⟩
  have hsd : symDefOf i sym =
      some { file := i, sectionIdx := sym.shndx, value := sym.value,
             size := sym.size } := by
    unfold symDefOf; rw [if_neg hx]
  rw [processSym_eq_core m i f sym h3 hs]
  unfold procSymCore
  simp only [hfind, hdef, hsd]

theorem processSym_ok_or_dup (m : SymMap) (i : Nat) (f : ElfData) (sym : SymR)
    (hok : sym.symType ≠ 3 → isOkE (stringAt f sym.name) = true) :
    (∃ m2, processSym m i f sym = .ok m2) ∨
    (∃ nm, processSym m i f sym = .error (.duplicateDefinition nm)) := by
  by_cases h3 : sym.symType = 3
  · exact .inl ⟨m, processSym_skip m i f sym h3⟩
  · have hh := hok h3
    cases hs : stringAt f sym.name with
    | error e => rw [hs] at hh; exact absurd hh (by simp [isOkE])
    | ok nm =>
      rw [processSym_eq_core m i f sym h3 hs]
      unfold procSymCore
      cases hfind : mapFind m nm with
      | none =>
        exact .inl ⟨m ++ [(nm, { name := nm, definition := symDefOf i sym })],
          rfl⟩
      | some entry =>
        cases hdef : entry.definition with
        | none =>
          cases hsd : symDefOf i sym with
          | none => exact .inl ⟨m, by simp only [hdef, hsd]⟩
          | some d =>
            exact .inl ⟨mapSet m nm { name := nm, definition := some d },
              by simp only [hdef, hsd]⟩
        | some d =>
          cases hsd : symDefOf i sym with
          | none => exact .inl ⟨m, by simp only [hdef, hsd]⟩
          | some d2 => exact .inr ⟨nm, by simp only [hdef, hsd]⟩

theorem processSym_err_string (m : SymMap) (i : Nat) (f : ElfData)
    (sym : SymR) {e : ElfReadErr} (h3 : sym.symType ≠ 3)
    (hs : stringAt f sym.name = .error e) :
    processSym m i f sym = .error (.readErr e) := by
  unfold processSym; rw [if_neg h3, hs]

theorem processSym_preserves (m m2 : SymMap) (i : Nat) (f : ElfData)
    (sym : SymR) (n : List Nat) (h : processSym m i f sym = .ok m2)
    (hd : HasDef m n) : HasDef m2 n := by
  by_cases h3 : sym.symType = 3
  · rw [processSym_skip m i f sym h3] at h
    rw [← Except.ok.inj h]; exact hd
  · cases hs : stringAt f sym.name with
    | error e =>
      rw [processSym_err_string m i f sym h3 hs] at h
      exact Except.noConfusion h
    | ok nm =>
      rw [processSym_eq_core m i f sym h3 hs] at h
      unfold procSymCore at h
      cases hfind : mapFind m nm with
      | none =>
        rw [hfind] at h
        have h2 : m2 =
            m ++ [(nm, { name := nm, definition := symDefOf i sym })] :=
          (Except.ok.inj h).symm
        rcases hd with ⟨e, d, hf, hdef⟩
        exact ⟨e, d, by rw [h2]; exact mapFind_append_of_some _ hf, hdef⟩
      | some entry =>
        cases hdef : entry.definition with
        | some d0 =>
          cases hsd : symDefOf i sym with
          | none =>
            simp only [hfind, hdef, hsd] at h
            rw [← Except.ok.inj h]; exact hd
          | some d1 =>
            simp only [hfind, hdef, hsd] at h
            exact Except.noConfusion h
        | none =>
          cases hsd : symDefOf i sym with
          | none =>
            simp only [hfind, hdef, hsd] at h
            rw [← Except.ok.inj h]; exact hd
          | some d1 =>
            simp only [hfind, hdef, hsd] at h
            rcases hd with ⟨e, d, hf, hdefn⟩
            by_cases hn : n = nm
            · rw [hn] at hf
              rw [hfind] at hf
              have : e = entry := (Option.some.inj hf).symm
              rw [this, hdef] at hdefn
              exact Option.noConfusion hdefn
            · refine ⟨e, d, ?_, hdefn⟩
              rw [← Except.ok.inj h]
              rw [mapFind_mapSet_other _ hn]
              exact hf

theorem processSym_install (m m2 : SymMap) (i : Nat) (f : ElfData)
    (sym : SymR) (n : List Nat) (h3 : sym.symType ≠ 3) (hx : sym.shndx ≠ 0)
    (hs : stringAt f sym.name = .ok n)
    (h : processSym m i f sym = .ok m2) : HasDef m2 n := by
  have hsd : symDefOf i sym =
      some { file := i, sectionIdx := sym.shndx, value := sym.value,
             size := sym.size } := by
    unfold symDefOf; rw [if_neg hx]
  rw [processSym_eq_core m i f sym h3 hs] at h
  unfold procSymCore at h
  cases hfind : mapFind m n with
  | none =>
    rw [hfind] at h
    have h2 : m2 =
        m ++ [(n, { name := n, definition := symDefOf i sym })] :=
      (Except.ok.inj h).symm
    refine ⟨{ name := n, definition := symDefOf i sym },
      { file := i, sectionIdx := sym.shndx, value := sym.value,
        size := sym.size }, ?_, hsd⟩
    rw [h2]; exact mapFind_append_right _ hfind
  | some entry =>
    cases hdef : entry.definition with
    | some d0 =>
      simp only [hfind, hdef, hsd] at h
      exact Except.noConfusion h
    | none =>
      simp only [hfind, hdef, hsd] at h
      refine ⟨{ name := n,
                definition := some { file := i, sectionIdx := sym.shndx,
                                     value := sym.value, size := sym.size } },
        { file := i, sectionIdx := sym.shndx, value := sym.value,
          size := sym.size }, ?_, rfl⟩
      rw [← Except.ok.inj h]
      exact mapFind_mapSet_same _ hfind

theorem processSyms_cons_err (m : SymMap) (i : Nat) (f : ElfData) (s : SymR)
    (rest : List SymR) {e : LinkErr} (hp : processSym m i f s = .error e) :
    processSyms m i f (s :: rest) = .error e := by
  conv_lhs => unfold processSyms
  rw [hp]
  rfl

theorem processSyms_cons_ok (m m' : SymMap) (i : Nat) (f : ElfData) (s : SymR)
    (rest : List SymR) (hp : processSym m i f s = .ok m') :
    processSyms m i f (s :: rest) = processSyms m' i f rest := by
  conv_lhs => unfold processSyms
  rw [hp]
  rfl

theorem processSyms_cons_inv (m m2 : SymMap) (i : Nat) (f : ElfData)
    (s : SymR) (rest : List SymR)
    (h : processSyms m i f (s :: rest) = .ok m2) :
    ∃ m', processSym m i f s = .ok m' ∧ processSyms m' i f rest = .ok m2 := by
  cases hp : processSym m i f s with
  | error e =>
    rw [processSyms_cons_err m i f s rest hp] at h
    exact Except.noConfusion h
  | ok m' =>
    rw [processSyms_cons_ok m m' i f s rest hp] at h
    exact ⟨m', rfl, h⟩

theorem processSyms_dup_or_ok (i : Nat) (f : ElfData) :
    ∀ (syms : List SymR) (m : SymMap), namesOk f syms →
    (∃ m2, processSyms m i f syms = .ok m2) ∨
    (∃ nm, processSyms m i f syms = .error (.duplicateDefinition nm))
  | [], m, _ => .inl ⟨m, rfl⟩
  | s :: rest, m, hno => by
    have hrest : namesOk f rest := fun x hx => hno x (List.mem_cons_of_mem _ hx)
    rcases processSym_ok_or_dup m i f s (hno s (List.mem_cons_self _ _)) with
      ⟨m', hp⟩ | ⟨nm, hp⟩
    · rw [processSyms_cons_ok m m' i f s rest hp]
      exact processSyms_dup_or_ok i f rest m' hrest
    · exact .inr ⟨nm, processSyms_cons_err m i f s rest hp⟩

theorem processSyms_preserves (i : Nat) (f : ElfData) (n : List Nat) :
    ∀ (syms : List SymR) (m m2 : SymMap),
    processSyms m i f syms = .ok m2 → HasDef m n → HasDef m2 n
  | [], m, m2, h, hd => by rw [← Except.ok.inj h]; exact hd
  | s :: rest, m, m2, h, hd => by
    rcases processSyms_cons_inv m m2 i f s rest h with ⟨m', hp, hrest⟩
    exact processSyms_preserves i f n rest m' m2 hrest
      (processSym_preserves m m' i f s n hp hd)

theorem processSyms_install (i : Nat) (f : ElfData) (n : List Nat) (x : SymR)
    (hx : definesSym f n x) :
    ∀ (syms : List SymR) (m m2 : SymMap), x ∈ syms →
    processSyms m i f syms = .ok m2 → HasDef m2 n
  | [], _, _, hmem, _ => absurd hmem (List.not_mem_nil _)
  | s :: rest, m, m2, hmem, h => by
    rcases processSyms_cons_inv m m2 i f s rest h with ⟨m', hp, hrest⟩
    rcases List.mem_cons.mp hmem with heq | hmem2
    · rw [← heq] at hp
      exact processSyms_preserves i f n rest m' m2 hrest
        (processSym_install m m' i f x n hx.1 hx.2.1 hx.2.2 hp)
    · exact processSyms_install i f n x hx rest m' m2 hmem2 hrest

theorem processSyms_blocked (i : Nat) (f : ElfData) (n : List Nat) (x : SymR)
    (hx : definesSym f n x) :
    ∀ (syms : List SymR) (m : SymMap), x ∈ syms → namesOk f syms →
    HasDef m n →
    ∃ nm, processSyms m i f syms = .error (.duplicateDefinition nm)
  | [], _, hmem, _, _ => absurd hmem (List.not_mem_nil _)
  | s :: rest, m, hmem, hno, hd => by
    have hrest : namesOk f rest := fun y hy => hno y (List.mem_cons_of_mem _ hy)
    rcases List.mem_cons.mp hmem with heq | hmem2
    · refine ⟨n, ?_⟩
      apply processSyms_cons_err
      rw [← heq]
      exact processSym_dup m i f x hx.1 hx.2.1 hx.2.2 hd
    · rcases processSym_ok_or_dup m i f s (hno s (List.mem_cons_self _ _)) with
        ⟨m', hp⟩ | ⟨nm, hp⟩
      · rw [processSyms_cons_ok m m' i f s rest hp]
        exact processSyms_blocked i f n x hx rest m' hmem2 hrest
          (processSym_preserves m m' i f s n hp hd)
      · exact ⟨nm, processSyms_cons_err m i f s rest hp⟩

theorem symFirstPassGo_cons (m : SymMap) (i : Nat) (f : ElfData)
    (fs : List ElfData) {syms : List SymR} (hsy : symbols f = .ok syms) :
    symFirstPassGo m i (f :: fs) =
      (processSyms m i f syms).bind (fun m' => symFirstPassGo m' (i + 1) fs) := by
  conv_lhs => unfold symFirstPassGo
  rw [hsy]
  rfl

theorem symFirstPassGo_step_err (m : SymMap) (i : Nat) (f : ElfData)
    (fs : List ElfData) {syms : List SymR} {e : LinkErr}
    (hsy : symbols f = .ok syms) (hps : processSyms m i f syms = .error e) :
    symFirstPassGo m i (f :: fs) = .error e := by
  rw [symFirstPassGo_cons m i f fs hsy, hps]
  rfl

theorem symFirstPassGo_step_ok (m : SymMap) (i : Nat) (f : ElfData)
    (fs : List ElfData) {syms : List SymR} {m' : SymMap}
    (hsy : symbols f = .ok syms) (hps : processSyms m i f syms = .ok m') :
    symFirstPassGo m i (f :: fs) = symFirstPassGo m' (i + 1) fs := by
  rw [symFirstPassGo_cons m i f fs hsy, hps]
  rfl

/-- Claim C4 (amended): for two input files whose symbol tables read
successfully, all of whose non-section-type symbol names resolve, and which
EACH contain a non-section-type symbol that carries a definition
(shndx ≠ SHN_UNDEF) under the same resolved name, the symbol first pass
fails with a duplicate-definition error; the error value carries only a
symbol name (the clashing one, or an earlier clash of the same link), never
the identities of the contributing files. -/
theorem c4_duplicate_definition (f1 f2 : ElfData) (syms1 syms2 : List SymR)
    (n : List Nat) (s1 s2 : SymR)
    (hsy1 : symbols f1 = .ok syms1) (hsy2 : symbols f2 = .ok syms2)
    (hno1 : namesOk f1 syms1) (hno2 : namesOk f2 syms2)
    (hm1 : s1 ∈ syms1) (hd1 : definesSym f1 n s1)
    (hm2 : s2 ∈ syms2) (hd2 : definesSym f2 n s2) :
    ∃ nm, symFirstPass [f1, f2] = .error (.duplicateDefinition nm) := by
  unfold symFirstPass
  rcases processSyms_dup_or_ok 0 f1 syms1 [] hno1 with ⟨m1, hok⟩ | ⟨nm, herr⟩
  · have hd : HasDef m1 n :=
      processSyms_install 0 f1 n s1 hd1 syms1 [] m1 hm1 hok
    rw [symFirstPassGo_step_ok [] 0 f1 [f2] hsy1 hok]
    rcases processSyms_blocked (0 + 1) f2 n s2 hd2 syms2 m1 hm2 hno2 hd with
      ⟨nm, herr2⟩
    rw [symFirstPassGo_step_err m1 (0 + 1) f2 [] hsy2 herr2]
    exact ⟨nm, rfl⟩
  · rw [symFirstPassGo_step_err [] 0 f1 [f2] hsy1 herr]
    exact ⟨nm, rfl⟩

/-- Claim C4, counterexample to the original wording: the duplicate
`foo` is contributed by files 0 and 1 in the first link and by files 1 and 2
in the second, yet both fail with the IDENTICAL error value — it carries only
the symbol name and cannot identify the contributing files. -/
theorem c4_duplicate_definition_counterexample :
    symFirstPass [objFoo, objFoo] = .error (.duplicateDefinition fooName) ∧
    symFirstPass [objExit, objFoo, objFoo] =
      .error (.duplicateDefinition fooName) := by
  decide

def c4sym : SymR :=
  { name := 1, info := 18, other := 0, shndx := 1, value := 0, size := 0 }

theorem c4_duplicate_definition_witness :
    (symbols objFoo = .ok [c4sym] ∧ namesOk objFoo [c4sym] ∧
      c4sym ∈ [c4sym] ∧ definesSym objFoo fooName c4sym) ∧
    ∃ nm, symFirstPass [objFoo, objFoo] = .error (.duplicateDefinition nm) :=
  ⟨⟨by decide, by decide, by decide, by decide⟩,
    c4_duplicate_definition objFoo objFoo [c4sym] [c4sym] fooName c4sym c4sym
      (by decide) (by decide) (by decide) (by decide) (by decide) (by decide)
      (by decide) (by decide)⟩

theorem isPow2_pos {a : Nat} (h : isPow2 a = true) : 0 < a := by
  rcases isPow2_iff.mp h with ⟨k, _, hk⟩
  rw [hk]; exact Nat.pos_pow_of_pos k (by norm_num)

theorem alignUpU_isSome {a : Nat} (x : Nat) (h : isPow2 a = true) :
    alignUpU x a = some (((x + a - 1) % U64) &&& (U64 - a)) := by
  unfold alignUpU
  rw [if_pos ⟨h, isPow2_pos h⟩]

theorem alignUpU_isNone {a : Nat} (x : Nat) (h : isPow2 a = false) :
    alignUpU x a = none := by
  unfold alignUpU
  rw [if_neg (fun hc => by rw [h] at hc; exact Bool.noConfusion hc.1)]

theorem allocParts_cons (cur : Nat) (a : AllocR) (rest : List AllocR) :
    allocParts cur (a :: rest) =
      match alignUpU cur a.align with
      | none => .error .alignAssert
      | some addr =>
        match allocParts ((addr + a.size) % U64) rest with
        | .error e => .error e
        | .ok (ps, fin) =>
          .ok ({ pad := (addr + U64 - cur) % U64, base := addr,
                 align := a.align, file := a.file, size := a.size } :: ps,
               fin) := rfl

theorem allocParts_cons_some (cur : Nat) (a : AllocR) (rest : List AllocR)
    {addr : Nat} (haddr : alignUpU cur a.align = some addr)
    {ps : List PartR} {fin : Nat}
    (hrest : allocParts ((addr + a.size) % U64) rest = .ok (ps, fin)) :
    allocParts cur (a :: rest) =
      .ok ({ pad := (addr + U64 - cur) % U64, base := addr, align := a.align,
             file := a.file, size := a.size } :: ps, fin) := by
  rw [allocParts_cons]
  simp only [haddr, hrest]

theorem allocParts_cons_err (cur : Nat) (a : AllocR) (rest : List AllocR)
    {addr : Nat} (haddr : alignUpU cur a.align = some addr) {e : LinkErr}
    (hrest : allocParts ((addr + a.size) % U64) rest = .error e) :
    allocParts cur (a :: rest) = .error e := by
  rw [allocParts_cons]
  simp only [haddr, hrest]

theorem allocParts_cons_none (cur : Nat) (a : AllocR) (rest : List AllocR)
    (haddr : alignUpU cur a.align = none) :
    allocParts cur (a :: rest) = .error .alignAssert := by
  rw [allocParts_cons, haddr]

theorem allocParts_total :
    ∀ (allocs : List AllocR) (cur : Nat),
    (∀ a ∈ allocs, isPow2 a.align = true) →
    ∃ ps fin, allocParts cur allocs = .ok (ps, fin)
  | [], cur, _ => ⟨[], cur, rfl⟩
  | a :: rest, cur, hp => by
    have haddr := alignUpU_isSome cur (hp a (List.mem_cons_self _ _))
    rcases allocParts_total rest
        (((((cur + a.align - 1) % U64) &&& (U64 - a.align)) + a.size) % U64)
        (fun x hx => hp x (List.mem_cons_of_mem _ hx)) with ⟨ps, fin, hps⟩
    exact ⟨_, fin, allocParts_cons_some cur a rest haddr hps⟩

theorem allocParts_err_shape :
    ∀ (allocs : List AllocR) (cur : Nat) {e : LinkErr},
    allocParts cur allocs = .error e → e = .alignAssert
  | [], cur, e, h => Except.noConfusion h
  | a :: rest, cur, e, h => by
    cases haddr : alignUpU cur a.align with
    | none =>
      rw [allocParts_cons_none cur a rest haddr] at h
      exact (Except.error.inj h).symm
    | some addr =>
      cases hrest : allocParts ((addr + a.size) % U64) rest with
      | error e2 =>
        have he2 := allocParts_err_shape rest _ hrest
        rw [allocParts_cons_err cur a rest haddr hrest] at h
        rw [← Except.error.inj h]
        exact he2
      | ok r =>
        rcases r with ⟨ps, fin⟩
        rw [allocParts_cons_some cur a rest haddr hrest] at h
        exact Except.noConfusion h

theorem allocParts_bad (x : AllocR) (hbad : isPow2 x.align = false) :
    ∀ (allocs : List AllocR) (cur : Nat), x ∈ allocs →
    allocParts cur allocs = .error .alignAssert
  | [], _, hmem => absurd hmem (List.not_mem_nil _)
  | a :: rest, cur, hmem => by
    cases haddr : alignUpU cur a.align with
    | none => exact allocParts_cons_none cur a rest haddr
    | some addr =>
      rcases List.mem_cons.mp hmem with heq | hmem2
      · rw [heq] at hbad
        rw [alignUpU_isNone cur hbad] at haddr
        exact Option.noConfusion haddr
      · exact allocParts_cons_err cur a rest haddr
          (allocParts_bad x hbad rest _ hmem2)

theorem isPow2_page : isPow2 DEFAULT_PAGE_ALIGN = true := by decide

theorem allocSections_cons (cur : Nat) (name : List Nat)
    (allocs : List AllocR) (rest : List (List Nat × List AllocR)) :
    allocSections cur ((name, allocs) :: rest) =
      match alignUpU cur DEFAULT_PAGE_ALIGN with
      | none => .error .alignAssert
      | some cur2 =>
        match allocParts cur2 allocs with
        | .error e => .error e
        | .ok (ps, fin) =>
          match allocSections fin rest with
          | .error e => .error e
          | .ok tl => .ok ({ name := name, parts := ps } :: tl) := rfl

theorem allocSections_total :
    ∀ (m : List (List Nat × List AllocR)) (cur : Nat),
    (∀ e ∈ m, ∀ a ∈ e.2, isPow2 a.align = true) →
    ∃ st, allocSections cur m = .ok st
  | [], _, _ => ⟨[], rfl⟩
  | (name, allocs) :: rest, cur, hp => by
    have hpage := alignUpU_isSome cur isPow2_page
    rcases allocParts_total allocs
        (((cur + DEFAULT_PAGE_ALIGN - 1) % U64) &&& (U64 - DEFAULT_PAGE_ALIGN))
        (hp (name, allocs) (List.mem_cons_self _ _)) with ⟨ps, fin, hps⟩
    rcases allocSections_total rest fin
        (fun x hx => hp x (List.mem_cons_of_mem _ hx)) with ⟨tl, htl⟩
    refine ⟨{ name := name, parts := ps } :: tl, ?_⟩
    rw [allocSections_cons]
    simp only [hpage, hps, htl]

theorem allocSections_bad (x : AllocR) (hbad : isPow2 x.align = false) :
    ∀ (m : List (List Nat × List AllocR)) (cur : Nat),
    (∃ e ∈ m, x ∈ e.2) →
    allocSections cur m = .error .alignAssert
  | [], _, hmem => absurd hmem (by simp)
  | (name, allocs) :: rest, cur, hmem => by
    have hpage := alignUpU_isSome cur isPow2_page
    rcases hmem with ⟨e, hme, hxe⟩
    rcases List.mem_cons.mp hme with heq | hme2
    · have : x ∈ allocs := by rw [heq] at hxe; exact hxe
      rw [allocSections_cons]
      simp only [hpage, allocParts_bad x hbad allocs _ this]
    · cases hps : allocParts
          (((cur + DEFAULT_PAGE_ALIGN - 1) % U64) &&&
            (U64 - DEFAULT_PAGE_ALIGN)) allocs with
      | error e2 =>
        have he2 := allocParts_err_shape allocs _ hps
        rw [allocSections_cons]
        simp only [hpage, hps, he2]
      | ok r =>
        rcases r with ⟨ps, fin⟩
        have htl := allocSections_bad x hbad rest fin ⟨e, hme2, hxe⟩
        rw [allocSections_cons]
        simp only [hpage, hps, htl]

/-- Claim C10: storage allocation is total exactly under the
power-of-two-alignment precondition.  With `m` the pass-one allocation map of
the input files: if every matched canonical section's addralign is a
power of two, `allocate_storage` returns a storage allocation; if any matched
section declares addralign 0 or a non-power-of-two, it halts with
`alignAssert` — the model of the `assert!` panic inside `utils::align_up` —
rather than any typed error value. -/
theorem c10_storage_align_assert (files : List ElfData)
    (m : List (List Nat × List AllocR)) (hm : allocPassOne files = .ok m) :
    ((∀ e ∈ m, ∀ a ∈ e.2, isPow2 a.align = true) →
      ∃ st, allocateStorage BASE_EXEC_ADDR files = .ok st) ∧
    ((∃ e ∈ m, ∃ a ∈ e.2, isPow2 a.align = false) →
      allocateStorage BASE_EXEC_ADDR files = .error .alignAssert) := by
  constructor
  · intro hall
    rcases allocSections_total m BASE_EXEC_ADDR hall with ⟨st, hst⟩
    refine ⟨st, ?_⟩
    unfold allocateStorage
    rw [hm]
    exact hst
  · rintro ⟨e, hme, a, hae, hbad⟩
    unfold allocateStorage
    rw [hm]
    exact allocSections_bad a hbad m BASE_EXEC_ADDR ⟨e, hme, hae⟩

def c10mapBad : List (List Nat × List AllocR) :=
  [(textName, [{ file := 0, sectionName := textName, size := 8, align := 6 }])]

def c10mapGood : List (List Nat × List AllocR) :=
  [(textName, [{ file := 0, sectionName := textName, size := 8, align := 16 }])]

theorem c10_storage_align_assert_witness :
    (allocPassOne [objAlign6] = .ok c10mapBad ∧
      (∃ e ∈ c10mapBad, ∃ a ∈ e.2, isPow2 a.align = false) ∧
      allocateStorage BASE_EXEC_ADDR [objAlign6] = .error .alignAssert) ∧
    (allocPassOne [objStart] = .ok c10mapGood ∧
      (∀ e ∈ c10mapGood, ∀ a ∈ e.2, isPow2 a.align = true) ∧
      ∃ st, allocateStorage BASE_EXEC_ADDR [objStart] = .ok st) :=
  ⟨⟨by decide, by decide,
    (c10_storage_align_assert [objAlign6] c10mapBad (by decide)).2
      (by decide)⟩,
   ⟨by decide, by decide,
    (c10_storage_align_assert [objStart] c10mapGood (by decide)).1
      (by decide)⟩⟩

/-- Round-up to a multiple of `a` by plain arithmetic. -/
def specRound (x a : Nat) : Nat := (x + a - 1) / a * a

/-- Modelled from the spec: the part-placement recurrence in its own words —
place each part in file-scan order with base = cursor rounded up to the
part's alignment, padding = base minus the previous cursor, cursor advanced
past the size.  To be compared against `allocParts`. -/
def specAllocParts (cur : Nat) : List AllocR → List PartR × Nat
  | [] => ([], cur)
  | a :: rest =>
    ({ pad := specRound cur a.align - cur, base := specRound cur a.align,
       align := a.align, file := a.file, size := a.size } ::
       (specAllocParts (specRound cur a.align + a.size) rest).1,
     (specAllocParts (specRound cur a.align + a.size) rest).2)

/-- Modelled from the spec: each canonical section starts at the cursor
rounded up to the next page boundary, then its parts are placed; sections
are processed in map order with the cursor threaded through.  To be compared
against `allocSections`. -/
def specAllocSections (cur : Nat) :
    List (List Nat × List AllocR) → List AllocatedSectionR × Nat
  | [] => ([], cur)
  | (name, allocs) :: rest =>
    ({ name := name,
       parts := (specAllocParts (specRound cur DEFAULT_PAGE_ALIGN) allocs).1 } ::
       (specAllocSections
         (specAllocParts (specRound cur DEFAULT_PAGE_ALIGN) allocs).2 rest).1,
     (specAllocSections
       (specAllocParts (specRound cur DEFAULT_PAGE_ALIGN) allocs).2 rest).2)

theorem specAllocParts_ge :
    ∀ (allocs : List AllocR) (cur : Nat),
    (∀ a ∈ allocs, isPow2 a.align = true) →
    cur ≤ (specAllocParts cur allocs).2
  | [], _, _ => le_refl _
  | a :: rest, cur, hp => by
    have hpos := isPow2_pos (hp a (List.mem_cons_self _ _))
    have h1 : cur ≤ specRound cur a.align := roundUp_ge hpos
    have h2 := specAllocParts_ge rest (specRound cur a.align + a.size)
      (fun x hx => hp x (List.mem_cons_of_mem _ hx))
    unfold specAllocParts
    omega

theorem specAllocSections_ge :
    ∀ (m : List (List Nat × List AllocR)) (cur : Nat),
    (∀ e ∈ m, ∀ a ∈ e.2, isPow2 a.align = true) →
    cur ≤ (specAllocSections cur m).2
  | [], _, _ => le_refl _
  | (name, allocs) :: rest, cur, hp => by
    have h1 : cur ≤ specRound cur DEFAULT_PAGE_ALIGN :=
      roundUp_ge (isPow2_pos isPow2_page)
    have h2 := specAllocParts_ge allocs (specRound cur DEFAULT_PAGE_ALIGN)
      (hp (name, allocs) (List.mem_cons_self _ _))
    have h3 := specAllocSections_ge rest
      (specAllocParts (specRound cur DEFAULT_PAGE_ALIGN) allocs).2
      (fun x hx => hp x (List.mem_cons_of_mem _ hx))
    unfold specAllocSections
    omega

theorem isPow2_le {a : Nat} (h : isPow2 a = true) : a ≤ 2 ^ 63 := by
  rcases isPow2_iff.mp h with ⟨k, hk, rfl⟩
  exact Nat.pow_le_pow_right (by norm_num) (by omega)

theorem specAllocParts_cons (cur : Nat) (a : AllocR) (rest : List AllocR) :
    specAllocParts cur (a :: rest) =
      ({ pad := specRound cur a.align - cur, base := specRound cur a.align,
         align := a.align, file := a.file, size := a.size } ::
         (specAllocParts (specRound cur a.align + a.size) rest).1,
       (specAllocParts (specRound cur a.align + a.size) rest).2) := rfl

theorem specAllocSections_cons (cur : Nat) (name : List Nat)
    (allocs : List AllocR) (rest : List (List Nat × List AllocR)) :
    specAllocSections cur ((name, allocs) :: rest) =
      ({ name := name,
         parts :=
           (specAllocParts (specRound cur DEFAULT_PAGE_ALIGN) allocs).1 } ::
         (specAllocSections
           (specAllocParts (specRound cur DEFAULT_PAGE_ALIGN) allocs).2
           rest).1,
       (specAllocSections
         (specAllocParts (specRound cur DEFAULT_PAGE_ALIGN) allocs).2
         rest).2) := rfl

theorem allocParts_refines :
    ∀ (allocs : List AllocR) (cur : Nat),
    (∀ a ∈ allocs, isPow2 a.align = true) →
    (specAllocParts cur allocs).2 ≤ 2 ^ 63 →
    allocParts cur allocs = .ok (specAllocParts cur allocs)
  | [], _, _, _ => rfl
  | a :: rest, cur, hp, hfin => by
    have hpa := hp a (List.mem_cons_self _ _)
    have hpos := isPow2_pos hpa
    have ha63 := isPow2_le hpa
    have hU : (2 : Nat) ^ 63 + 2 ^ 63 ≤ U64 := by norm_num [U64]
    have hge := specAllocParts_ge rest (specRound cur a.align + a.size)
      (fun x hx => hp x (List.mem_cons_of_mem _ hx))
    have hfin2 : (specAllocParts (specRound cur a.align + a.size) rest).2 ≤
        2 ^ 63 := by
      have he : (specAllocParts cur (a :: rest)).2 =
          (specAllocParts (specRound cur a.align + a.size) rest).2 := rfl
      rw [← he]; exact hfin
    have hb63 : specRound cur a.align + a.size ≤ 2 ^ 63 :=
      le_trans hge hfin2
    have hcb : cur ≤ specRound cur a.align := roundUp_ge hpos
    have hov : cur + a.align ≤ U64 := by omega
    have haddr : alignUpU cur a.align = some (specRound cur a.align) :=
      alignUpU_eq hpa hov
    have hmod : (specRound cur a.align + a.size) % U64 =
        specRound cur a.align + a.size := Nat.mod_eq_of_lt (by omega)
    have hih := allocParts_refines rest (specRound cur a.align + a.size)
      (fun x hx => hp x (List.mem_cons_of_mem _ hx)) hfin2
    rcases hsp : specAllocParts (specRound cur a.align + a.size) rest with
      ⟨ps, fin⟩
    rw [hsp] at hih
    have hrest : allocParts ((specRound cur a.align + a.size) % U64) rest =
        .ok (ps, fin) := by rw [hmod]; exact hih
    have hpad : (specRound cur a.align + U64 - cur) % U64 =
        specRound cur a.align - cur := by
      have h2 : specRound cur a.align + U64 - cur =
          (specRound cur a.align - cur) + U64 := by omega
      rw [h2, Nat.add_mod_right, Nat.mod_eq_of_lt (by omega)]
    rw [allocParts_cons_some cur a rest haddr hrest, hpad,
      specAllocParts_cons, hsp]

theorem allocSections_refines :
    ∀ (m : List (List Nat × List AllocR)) (cur : Nat),
    (∀ e ∈ m, ∀ a ∈ e.2, isPow2 a.align = true) →
    (specAllocSections cur m).2 ≤ 2 ^ 63 →
    allocSections cur m = .ok (specAllocSections cur m).1
  | [], _, _, _ => rfl
  | (name, allocs) :: rest, cur, hp, hfin => by
    have hU : (2 : Nat) ^ 63 + 2 ^ 63 ≤ U64 := by norm_num [U64]
    have hPg : DEFAULT_PAGE_ALIGN ≤ 2 ^ 63 := by norm_num [DEFAULT_PAGE_ALIGN]
    have h1 : cur ≤ specRound cur DEFAULT_PAGE_ALIGN :=
      roundUp_ge (isPow2_pos isPow2_page)
    have h2 := specAllocParts_ge allocs (specRound cur DEFAULT_PAGE_ALIGN)
      (hp (name, allocs) (List.mem_cons_self _ _))
    have h3 := specAllocSections_ge rest
      (specAllocParts (specRound cur DEFAULT_PAGE_ALIGN) allocs).2
      (fun x hx => hp x (List.mem_cons_of_mem _ hx))
    have hfin2 : (specAllocSections
        (specAllocParts (specRound cur DEFAULT_PAGE_ALIGN) allocs).2
        rest).2 ≤ 2 ^ 63 := by
      have he : (specAllocSections cur ((name, allocs) :: rest)).2 =
          (specAllocSections
            (specAllocParts (specRound cur DEFAULT_PAGE_ALIGN) allocs).2
            rest).2 := rfl
      rw [← he]; exact hfin
    have hparts63 :
        (specAllocParts (specRound cur DEFAULT_PAGE_ALIGN) allocs).2 ≤
          2 ^ 63 := le_trans h3 hfin2
    have hov : cur + DEFAULT_PAGE_ALIGN ≤ U64 := by omega
    have hpage : alignUpU cur DEFAULT_PAGE_ALIGN =
        some (specRound cur DEFAULT_PAGE_ALIGN) := alignUpU_eq isPow2_page hov
    have hpartsEq := allocParts_refines allocs
      (specRound cur DEFAULT_PAGE_ALIGN)
      (hp (name, allocs) (List.mem_cons_self _ _)) hparts63
    rcases hsp : specAllocParts (specRound cur DEFAULT_PAGE_ALIGN) allocs with
      ⟨ps, fin⟩
    rw [hsp] at hpartsEq hfin2
    have hih := allocSections_refines rest fin
      (fun x hx => hp x (List.mem_cons_of_mem _ hx)) hfin2
    rw [allocSections_cons]
    simp only [hpage, hpartsEq, hih]
    rw [specAllocSections_cons, hsp]

theorem allocateStorage_refines (files : List ElfData)
    (m : List (List Nat × List AllocR)) (hm : allocPassOne files = .ok m)
    (hp : ∀ e ∈ m, ∀ a ∈ e.2, isPow2 a.align = true)
    (hfin : (specAllocSections BASE_EXEC_ADDR m).2 ≤ 2 ^ 63) :
    allocateStorage BASE_EXEC_ADDR files =
      .ok (specAllocSections BASE_EXEC_ADDR m).1 := by
  unfold allocateStorage
  rw [hm]
  exact allocSections_refines m BASE_EXEC_ADDR hp hfin

/-- All parts of a storage allocation, in section-then-part order. -/
def partsOf : List AllocatedSectionR → List PartR
  | [] => []
  | s :: rest => s.parts ++ partsOf rest

/-- The parts occupy consecutive, non-decreasing address ranges between
`cur` and `fin`: each base is at or past the running cursor, and the cursor
steps past each part's size. -/
def partsChained : Nat → List PartR → Nat → Prop
  | cur, [], fin => cur ≤ fin
  | cur, p :: rest, fin =>
    cur ≤ p.base ∧ partsChained (p.base + p.size) rest fin

theorem partsChained_weaken {cur cur' fin : Nat} {ps : List PartR}
    (h : cur' ≤ cur) (hc : partsChained cur ps fin) :
    partsChained cur' ps fin := by
  cases ps with
  | nil => exact le_trans h hc
  | cons p rest => exact ⟨le_trans h hc.1, hc.2⟩

theorem partsChained_append {cur mid fin : Nat} :
    ∀ {ps : List PartR} {qs : List PartR},
    partsChained cur ps mid → partsChained mid qs fin →
    partsChained cur (ps ++ qs) fin
  | [], qs, hp, hq => by
    rw [List.nil_append]
    exact partsChained_weaken hp hq
  | p :: rest, qs, hp, hq => by
    rw [List.cons_append]
    exact ⟨hp.1, partsChained_append hp.2 hq⟩

theorem partsChained_base_ge :
    ∀ {ps : List PartR} {cur fin k : Nat} {q : PartR},
    partsChained cur ps fin → ps.get? k = some q → cur ≤ q.base
  | [], _, _, k, _, _, hk => by simp at hk
  | p :: rest, cur, fin, 0, q, hc, hk => by
    rw [Option.some.inj hk] at hc
    exact hc.1
  | p :: rest, cur, fin, k + 1, q, hc, hk => by
    have := partsChained_base_ge hc.2 hk
    have h1 : cur ≤ p.base := hc.1
    omega

theorem partsChained_disjoint :
    ∀ {ps : List PartR} {cur fin i j : Nat} {p q : PartR},
    partsChained cur ps fin → i < j → ps.get? i = some p →
    ps.get? j = some q → p.base + p.size ≤ q.base
  | [], _, _, i, j, p, q, _, _, hi, _ => by simp at hi
  | x :: rest, cur, fin, 0, j, p, q, hc, hij, hi, hj => by
    rcases j with _ | j
    · omega
    · rw [← Option.some.inj hi]
      exact partsChained_base_ge hc.2 hj
  | x :: rest, cur, fin, i + 1, j, p, q, hc, hij, hi, hj => by
    rcases j with _ | j
    · omega
    · exact partsChained_disjoint hc.2 (by omega) hi hj

theorem specAllocParts_chained :
    ∀ (allocs : List AllocR) (cur : Nat),
    (∀ a ∈ allocs, isPow2 a.align = true) →
    partsChained cur (specAllocParts cur allocs).1
      (specAllocParts cur allocs).2
  | [], cur, _ => le_refl cur
  | a :: rest, cur, hp => by
    have hpos := isPow2_pos (hp a (List.mem_cons_self _ _))
    have hih := specAllocParts_chained rest (specRound cur a.align + a.size)
      (fun x hx => hp x (List.mem_cons_of_mem _ hx))
    rw [specAllocParts_cons]
    exact ⟨roundUp_ge hpos, hih⟩

theorem specAllocSections_chained :
    ∀ (m : List (List Nat × List AllocR)) (cur : Nat),
    (∀ e ∈ m, ∀ a ∈ e.2, isPow2 a.align = true) →
    partsChained cur (partsOf (specAllocSections cur m).1)
      (specAllocSections cur m).2
  | [], cur, _ => le_refl cur
  | (name, allocs) :: rest, cur, hp => by
    have h1 : cur ≤ specRound cur DEFAULT_PAGE_ALIGN :=
      roundUp_ge (isPow2_pos isPow2_page)
    have hparts := specAllocParts_chained allocs
      (specRound cur DEFAULT_PAGE_ALIGN)
      (hp (name, allocs) (List.mem_cons_self _ _))
    have hih := specAllocSections_chained rest
      (specAllocParts (specRound cur DEFAULT_PAGE_ALIGN) allocs).2
      (fun x hx => hp x (List.mem_cons_of_mem _ hx))
    rw [specAllocSections_cons]
    show partsChained cur
      ((specAllocParts (specRound cur DEFAULT_PAGE_ALIGN) allocs).1 ++
        partsOf (specAllocSections
          (specAllocParts (specRound cur DEFAULT_PAGE_ALIGN) allocs).2
          rest).1) _
    exact partsChained_append (partsChained_weaken h1 hparts) hih

/-- Claim C7: with `m` the pass-one allocation map of the input files, all
matched alignments powers of two, and the final cursor within u64 range
(no wrapping), `allocate_storage` computes exactly the specified recurrence
`specAllocSections` — every canonical section page-aligned first, every part
based at the cursor rounded up to its own alignment with the padding
recorded as base minus previous cursor and the cursor advanced past the
size — and consequently the parts of the result, in order, occupy pairwise
non-overlapping address ranges. -/
theorem c7_storage_allocation (files : List ElfData)
    (m : List (List Nat × List AllocR)) (hm : allocPassOne files = .ok m)
    (hp : ∀ e ∈ m, ∀ a ∈ e.2, isPow2 a.align = true)
    (hfin : (specAllocSections BASE_EXEC_ADDR m).2 ≤ 2 ^ 63) :
    allocateStorage BASE_EXEC_ADDR files =
      .ok (specAllocSections BASE_EXEC_ADDR m).1 ∧
    ∀ i j p q, i < j →
      (partsOf (specAllocSections BASE_EXEC_ADDR m).1).get? i = some p →
      (partsOf (specAllocSections BASE_EXEC_ADDR m).1).get? j = some q →
      p.base + p.size ≤ q.base :=
  ⟨allocateStorage_refines files m hm hp hfin,
   fun _ _ _ _ hij hi hj =>
     partsChained_disjoint (specAllocSections_chained m BASE_EXEC_ADDR hp)
       hij hi hj⟩

def c7map : List (List Nat × List AllocR) :=
  [(textName, [{ file := 0, sectionName := textName, size := 8, align := 16 }])]

theorem c7_storage_allocation_witness :
    (allocPassOne [objStart] = .ok c7map ∧
      (∀ e ∈ c7map, ∀ a ∈ e.2, isPow2 a.align = true) ∧
      (specAllocSections BASE_EXEC_ADDR c7map).2 ≤ 2 ^ 63) ∧
    (allocateStorage BASE_EXEC_ADDR [objStart] =
        .ok (specAllocSections BASE_EXEC_ADDR c7map).1 ∧
      ∀ i j p q, i < j →
        (partsOf (specAllocSections BASE_EXEC_ADDR c7map).1).get? i = some p →
        (partsOf (specAllocSections BASE_EXEC_ADDR c7map).1).get? j = some q →
        p.base + p.size ≤ q.base) :=
  ⟨⟨by decide, by decide, by decide⟩,
   c7_storage_allocation [objStart] c7map (by decide) (by decide) (by decide)⟩
